import Mathlib

/-!
Verification development for `redis-dev-server` (src/index.js).

The source is a single-file Node.js in-memory redis-like server.  We give a
shallow embedding of its core: the incremental frame decoder
(`RedisConnection.parse` / `append` / `item` / `push`), the reply encoder
(`RedisConnection.respond`), the keyspace commands the claims exercise
(`runSet`, `runMset`, `runMsetnx`, `runDel`, `runFlushall`, `runDbsize`,
`runKeys`, `runExpireat`/`runExpire`/`runPexpire`, `runDumpall`) and the
persistence pipeline (`RedisServer.save` / `load`).

Bytes are modelled as `Nat`; JS numbers that can be `NaN` are modelled as
`Option Int` (`none` = `NaN`); JS `null`/`undefined` fields as `Option`.
-/

namespace RedisDev

/-- `const CR = 13` -/
def CR : Nat := 13
/-- line feed, the unchecked second byte of a terminator -/
def LF : Nat := 10
/-- `const BUFFER = 36` (the `$` tag) -/
def BUFFER : Nat := 36
/-- `const ARRAY = 42` (the `*` tag) -/
def ARRAY : Nat := 42
/-- `const SIMPLE = 43` (the `+` tag) -/
def SIMPLE : Nat := 43
/-- `const ERROR = 45` (the `-` tag) -/
def ERROR : Nat := 45
/-- `const NUMBER = 58` (the `:` tag) -/
def NUMBER : Nat := 58

/-- ASCII bytes of a Lean string literal (helper for writing byte lists). -/
def bs (s : String) : List Nat := s.toList.map Char.toNat

/-- JS whitespace accepted by `parseInt` before the number. -/
def isJsWS (b : Nat) : Bool := b = 32 || b = 9 || b = 10 || b = 11 || b = 12 || b = 13

/-- decimal digit bytes at the front of a byte list -/
def leadDigits (s : List Nat) : List Nat := s.takeWhile (fun b => 48 ≤ b && b ≤ 57)

/-- value of a most-significant-first list of digit bytes -/
def decValue (ds : List Nat) : Nat := ds.foldl (fun acc d => acc * 10 + (d - 48)) 0

/-- `parseInt(s, 10)`: skip whitespace, optional sign, digit prefix; `none` = `NaN`. -/
def jsParseInt (s : List Nat) : Option Int :=
  match s.dropWhile isJsWS with
  | [] => none
  | c :: rest =>
    if c = 45 then
      let ds := leadDigits rest
      if ds = [] then none else some (-(decValue ds : Int))
    else if c = 43 then
      let ds := leadDigits rest
      if ds = [] then none else some ((decValue ds : Int))
    else
      let ds := leadDigits (c :: rest)
      if ds = [] then none else some ((decValue ds : Int))

/-- most-significant-first decimal digit bytes of `n` (`[]` for `0`);
the first argument is structural-recursion fuel, any value above `n` works -/
def natDecGo : Nat → Nat → List Nat
  | 0, _ => []
  | _ + 1, 0 => []
  | fuel + 1, n + 1 => natDecGo fuel ((n + 1) / 10) ++ [(n + 1) % 10 + 48]

/-- decimal rendering of a natural number (`String(n)` for `n ≥ 0`) -/
def natDec (n : Nat) : List Nat :=
  if n = 0 then [48] else natDecGo (n + 1) n

/-- decimal rendering of an integer (`String(v)`) -/
def intDec (v : Int) : List Nat :=
  if v < 0 then 45 :: natDec (-v).toNat else natDec v.toNat

/-! ## Decoded protocol items

The JS values a decoded frame can be: `null` (bulk length −1), `undefined`,
a number (`NaN` modelled by `none`), a string (from `+`/`-` lines), a
`Buffer` (bulk body) or a nested array. -/

inductive RItem where
  | nullv : RItem
  | undef : RItem
  | int : Option Int → RItem
  | str : List Nat → RItem
  | buf : List Nat → RItem
  | arr : List RItem → RItem

/-- an in-progress array on the decoder stack: a JS array with a `size`
property (`parseInt` of the count line; `none` = `NaN`) -/
structure PArr where
  size : Option Int
  items : List RItem

/-- `RedisConnection.push`: append a completed item to the top in-progress
array; when the array reaches its `size`, pop it and push the array itself;
with an empty stack the item is a dispatched top-level frame.
The head of the list is the top of the JS stack.
Returns the new stack and the dispatched frame, if any. -/
def pushItem : List PArr → RItem → List PArr × Option RItem
  | [], it => ([], some it)
  | a :: rest, it =>
    let items' := a.items ++ [it]
    if a.size = some ((items'.length : Int)) then pushItem rest (.arr items')
    else (⟨a.size, items'⟩ :: rest, none)

/-- `this.type`: `null`, a tag byte, or the marker `Buffer` (byte-copy mode). -/
inductive Mode where
  | idle
  | tag (t : Nat)
  | body

/-- decoder state persisted across `parse` calls: `this.type`, `this.line`,
`this.length`, `this.stack` -/
structure PState where
  mode : Mode
  line : Option (List Nat)
  length : Option Int
  stack : List PArr

/-- initial decoder state of a fresh connection -/
def initPState : PState := ⟨.idle, none, none, []⟩

/-- `this.line` coerced for appending (`this.line ? this.line : part`) -/
def lineAcc (st : PState) : List Nat := st.line.getD []

/-- tag bytes accepted by `[ARRAY, BUFFER, NUMBER, SIMPLE, ERROR].includes` -/
def validTag (b : Nat) : Bool := b = 42 || b = 36 || b = 58 || b = 43 || b = 45

/-- split a byte list at its first CR: `data.indexOf(CR, p)`;
returns the bytes before the CR and the bytes after it. -/
def splitAtCR : List Nat → Option (List Nat × List Nat)
  | [] => none
  | b :: rest =>
    if b = 13 then some ([], rest)
    else (splitAtCR rest).map (fun p => (b :: p.1, p.2))

/-- result of executing one iteration of the `while (p < data.length)` loop
of `RedisConnection.parse`:
* `cont st rest fr`: the loop continues at the new position with `rest`
  remaining, having dispatched `fr` (if any);
* `stop st over fr`: the loop exits; `over` is how far the final `p` skip
  overshot the end of the chunk (the code loses this: `p` is local);
* `fault`: `throw new Error('Unknown type: ...')`;
* `hang`: the loop never terminates (negative bulk length other than −1). -/
inductive StepRes where
  | cont (st : PState) (rest : List Nat) (fr : Option RItem)
  | stop (st : PState) (over : Nat) (fr : Option RItem)
  | fault
  | hang

/-- the `if (!this.type)` branch of `parse`: read a tag byte, skip a bare
CR-LF, or fault on an unknown tag. -/
def idleStep (st : PState) : List Nat → StepRes
  | [] => .stop st 0 none
  | b :: rest =>
    if b = 13 then
      match rest with
      | [] => .stop st 1 none
      | _ :: rest' => .cont st rest' none
    else if validTag b then
      .cont { st with mode := .tag b, line := none, length := none } rest none
    else .fault

/-- the `if (this.type === Buffer)` branch of `parse`: copy bulk-body bytes.
With `length` `NaN` the arithmetic poisons `p` and the rest of the chunk is
discarded; with `length` below the bytes already read the loop never
terminates; otherwise copy `min(needed, available)` bytes and, when the body
is complete, skip two terminator bytes unconditionally and emit the item. -/
def bodyStep (st : PState) (data : List Nat) : StepRes :=
  match st.length with
  | none => .stop { st with line := some (lineAcc st) } 0 none
  | some n =>
    let acc := lineAcc st
    if n < (acc.length : Int) then .hang
    else
      let needed := (n - (acc.length : Int)).toNat
      if needed ≤ data.length then
        let body := acc ++ data.take needed
        let pr := pushItem st.stack (.buf body)
        let st' : PState := { st with mode := .idle, line := some body, stack := pr.1 }
        if needed + 2 < data.length then .cont st' (data.drop (needed + 2)) pr.2
        else .stop st' (needed + 2 - data.length) pr.2
      else
        .stop { st with line := some (acc ++ data) } 0 none

/-- the line-reading branch of `parse` for a pending tag `t`: accumulate
bytes to the first CR (or the whole chunk if none), then skip two bytes
(`p = lineEnd + 2`) and run `item` on the line. -/
def lineStep (st : PState) (t : Nat) (data : List Nat) : StepRes :=
  match splitAtCR data with
  | none => .stop { st with line := some (lineAcc st ++ data) } 0 none
  | some (before, after) =>
    let lineFull := lineAcc st ++ before
    let res : PState × Option RItem :=
      if t = 36 then
        let v := jsParseInt lineFull
        if v = some (-1) then
          let pr := pushItem st.stack .nullv
          ({ st with mode := .idle, line := some lineFull, length := v, stack := pr.1 }, pr.2)
        else
          ({ st with mode := .body, line := none, length := v }, none)
      else if t = 42 then
        ({ st with mode := .idle, line := some lineFull, stack := ⟨jsParseInt lineFull, []⟩ :: st.stack }, none)
      else if t = 58 then
        let pr := pushItem st.stack (.int (jsParseInt lineFull))
        ({ st with mode := .idle, line := some lineFull, stack := pr.1 }, pr.2)
      else
        let pr := pushItem st.stack (.str lineFull)
        ({ st with mode := .idle, line := some lineFull, stack := pr.1 }, pr.2)
    match after with
    | [] => .stop res.1 1 res.2
    | [_] => .stop res.1 0 res.2
    | _ :: a :: rest => .cont res.1 (a :: rest) res.2

/-- one iteration of the `parse` loop -/
def step (st : PState) (data : List Nat) : StepRes :=
  match data with
  | [] => .stop st 0 none
  | _ =>
    match st.mode with
    | .idle => idleStep st data
    | .body => bodyStep st data
    | .tag t => lineStep st t data

/-- outcome of a whole `parse(data)` call -/
inductive POut where
  | ok (st : PState) (over : Nat)
  | fault
  | hang

/-- a `parse(data)` call: the top-level frames dispatched (in dispatch
order) and the outcome -/
structure PRes where
  frames : List RItem
  out : POut

/-- fuelled iteration of `step` (fuel is only a structural-recursion device;
`data.length + 1` is always enough since every `cont` consumes a byte) -/
def parseGo : Nat → PState → List Nat → PRes
  | 0, st, _ => ⟨[], .ok st 0⟩
  | fuel + 1, st, data =>
    match step st data with
    | .cont st' rest fr =>
      let r := parseGo fuel st' rest
      ⟨fr.toList ++ r.frames, r.out⟩
    | .stop st' over fr => ⟨fr.toList, .ok st' over⟩
    | .fault => ⟨[], .fault⟩
    | .hang => ⟨[], .hang⟩

/-- `RedisConnection.parse(data)` run from state `st` -/
def parseRun (st : PState) (data : List Nat) : PRes :=
  parseGo (data.length + 1) st data

/-! ## Basic decoder lemmas -/

theorem splitAtCR_eq_some : ∀ {data before after : List Nat},
    splitAtCR data = some (before, after) →
    data = before ++ 13 :: after ∧ (13 : Nat) ∉ before := by
  intro data
  induction data with
  | nil => intro b a h; simp [splitAtCR] at h
  | cons x rest ih =>
    intro b a h
    simp only [splitAtCR] at h
    by_cases hx : x = 13
    · rw [if_pos hx] at h
      simp only [Option.some.injEq, Prod.mk.injEq] at h
      obtain ⟨hb, ha⟩ := h
      subst hb; subst ha; subst hx; simp
    · rw [if_neg hx] at h
      cases hr : splitAtCR rest with
      | none => rw [hr] at h; simp at h
      | some p =>
        obtain ⟨b', a'⟩ := p
        rw [hr] at h
        simp only [Option.map_some', Option.some.injEq, Prod.mk.injEq] at h
        obtain ⟨hb, ha⟩ := h
        subst hb; subst ha
        obtain ⟨heq, hmem⟩ := ih hr
        constructor
        · rw [heq]; simp
        · simp [List.mem_cons, hmem, Ne.symm hx]

theorem splitAtCR_eq_none : ∀ {data : List Nat},
    splitAtCR data = none → (13 : Nat) ∉ data := by
  intro data
  induction data with
  | nil => intro _; simp
  | cons x rest ih =>
    intro h
    simp only [splitAtCR] at h
    by_cases hx : x = 13
    · rw [if_pos hx] at h; simp at h
    · rw [if_neg hx] at h
      cases hr : splitAtCR rest with
      | none => simp [List.mem_cons, ih hr, Ne.symm hx]
      | some p => rw [hr] at h; simp at h

theorem splitAtCR_append_none {c1 : List Nat} (h : splitAtCR c1 = none) (c2 : List Nat) :
    splitAtCR (c1 ++ c2) = (splitAtCR c2).map (fun p => (c1 ++ p.1, p.2)) := by
  induction c1 with
  | nil => simp
  | cons x rest ih =>
    simp only [splitAtCR] at h ⊢
    by_cases hx : x = 13
    · rw [if_pos hx] at h; simp at h
    · rw [if_neg hx] at h ⊢
      cases hr : splitAtCR rest with
      | none =>
        simp only [List.append_eq]
        rw [ih hr]
        cases splitAtCR c2 <;> simp
      | some p => rw [hr] at h; simp at h

theorem splitAtCR_append_some {c1 b a : List Nat} (h : splitAtCR c1 = some (b, a))
    (c2 : List Nat) : splitAtCR (c1 ++ c2) = some (b, a ++ c2) := by
  induction c1 generalizing b with
  | nil => simp [splitAtCR] at h
  | cons x rest ih =>
    simp only [splitAtCR] at h ⊢
    by_cases hx : x = 13
    · rw [if_pos hx] at h ⊢
      simp only [Option.some.injEq, Prod.mk.injEq] at h
      obtain ⟨hb, ha⟩ := h
      subst hb; subst ha; rfl
    · rw [if_neg hx] at h ⊢
      cases hr : splitAtCR rest with
      | none => rw [hr] at h; simp at h
      | some p =>
        obtain ⟨b', a'⟩ := p
        rw [hr] at h
        simp only [Option.map_some', Option.some.injEq, Prod.mk.injEq] at h
        obtain ⟨hb, ha⟩ := h
        subst hb; subst ha
        simp only [List.append_eq]
        rw [ih hr]
        simp

/-! ## Unfolding `parseRun` one loop iteration at a time -/

theorem step_nil (st : PState) : step st [] = .stop st 0 none := rfl

theorem idleStep_cont_length {st st' : PState} {data rest : List Nat} {fr : Option RItem}
    (h : idleStep st data = .cont st' rest fr) : rest.length < data.length := by
  match data with
  | [] => simp [idleStep] at h
  | b :: ds =>
    simp only [idleStep] at h
    split at h
    · match ds, h with
      | [], h => simp at h
      | x :: ds', h =>
        cases h
        simp only [List.length_cons]
        omega
    · split at h
      · cases h; simp
      · cases h

theorem bodyStep_cont_length {st st' : PState} {data rest : List Nat} {fr : Option RItem}
    (h : bodyStep st data = .cont st' rest fr) : rest.length < data.length := by
  simp only [bodyStep] at h
  split at h
  · cases h
  · split at h
    · cases h
    · split at h
      · split at h
        · next hlt =>
          cases h
          simp only [List.length_drop]
          omega
        · cases h
      · cases h

theorem lineStep_cont_length {st st' : PState} {t : Nat} {data rest : List Nat}
    {fr : Option RItem} (h : lineStep st t data = .cont st' rest fr) :
    rest.length < data.length := by
  simp only [lineStep] at h
  split at h
  · cases h
  · next before after heq =>
    obtain ⟨hdata, -⟩ := splitAtCR_eq_some heq
    match after, h with
    | _ :: a :: r, h =>
      cases h
      rw [hdata]
      simp only [List.length_append, List.length_cons]
      omega

theorem step_cont_length {st st' : PState} {data rest : List Nat} {fr : Option RItem}
    (h : step st data = .cont st' rest fr) : rest.length < data.length := by
  match data with
  | [] => simp [step] at h
  | b :: ds =>
    simp only [step] at h
    match st, h with
    | ⟨.idle, l, n, k⟩, h => exact idleStep_cont_length h
    | ⟨.body, l, n, k⟩, h => exact bodyStep_cont_length h
    | ⟨.tag t, l, n, k⟩, h => exact lineStep_cont_length h

theorem parseGo_agree : ∀ (n : Nat) (data : List Nat), data.length ≤ n →
    ∀ (f f' : Nat) (st : PState), data.length < f → data.length < f' →
    parseGo f st data = parseGo f' st data := by
  intro n
  induction n with
  | zero =>
    intro data hn f f' st hf hf'
    match data, hn with
    | [], _ =>
      match f, hf, f', hf' with
      | g + 1, _, g' + 1, _ => simp [parseGo, step_nil]
  | succ m ih =>
    intro data hn f f' st hf hf'
    match f, hf, f', hf' with
    | g + 1, hf, g' + 1, hf' =>
      simp only [parseGo]
      cases hstep : step st data with
      | cont st2 rest fr =>
        have hlt := step_cont_length hstep
        dsimp only
        rw [ih rest (by omega) g g' st2 (by omega) (by omega)]
      | stop st2 over fr => rfl
      | fault => rfl
      | hang => rfl

/-- one-iteration unfolding of `parseRun` -/
theorem parseRun_eq (st : PState) (data : List Nat) :
    parseRun st data =
      match step st data with
      | .cont st' rest fr => ⟨fr.toList ++ (parseRun st' rest).frames, (parseRun st' rest).out⟩
      | .stop st' over fr => ⟨fr.toList, .ok st' over⟩
      | .fault => ⟨[], .fault⟩
      | .hang => ⟨[], .hang⟩ := by
  conv_lhs => rw [parseRun]
  simp only [parseGo]
  cases hstep : step st data with
  | cont st2 rest fr =>
    have hlt := step_cont_length hstep
    dsimp only
    rw [parseGo_agree rest.length rest (le_refl _) data.length (rest.length + 1) st2
      (by omega) (by omega)]
    rfl
  | stop st2 over fr => rfl
  | fault => rfl
  | hang => rfl

/-! ## Chunk-split composition

When one `parse` call ends without a pending two-byte terminator skip
crossing the chunk end (`over = 0`), processing the concatenation is the
same as processing the chunks in sequence.  The lemmas below track one loop
iteration across an appended suffix. -/

theorem idleStep_append {st st' : PState} {b : Nat} {ds c2 rest : List Nat}
    {fr : Option RItem} (h : idleStep st (b :: ds) = .cont st' rest fr) :
    idleStep st (b :: (ds ++ c2)) = .cont st' (rest ++ c2) fr := by
  simp only [idleStep] at h ⊢
  by_cases hb : b = 13
  · rw [if_pos hb] at h ⊢
    cases ds with
    | nil => simp at h
    | cons x ds' =>
      injection h with e1 e2 e3
      subst e1; subst e2; subst e3
      rfl
  · rw [if_neg hb] at h ⊢
    by_cases hv : validTag b
    · rw [if_pos hv] at h ⊢
      injection h with e1 e2 e3
      subst e1; subst e2; subst e3
      rfl
    · rw [if_neg hv] at h
      simp at h

theorem bodyStep_append {st st' : PState} {c1 c2 rest : List Nat} {fr : Option RItem}
    (h : bodyStep st c1 = .cont st' rest fr) :
    bodyStep st (c1 ++ c2) = .cont st' (rest ++ c2) fr := by
  obtain ⟨mo, li, le, sk⟩ := st
  cases le with
  | none => simp [bodyStep] at h
  | some n =>
    simp only [bodyStep, lineAcc] at h ⊢
    by_cases hlt : n < (((li.getD []) : List Nat).length : Int)
    · rw [if_pos hlt] at h; simp at h
    · rw [if_neg hlt] at h ⊢
      by_cases h1 : (n - (((li.getD []) : List Nat).length : Int)).toNat ≤ c1.length
      · rw [if_pos h1] at h
        by_cases h2 : (n - (((li.getD []) : List Nat).length : Int)).toNat + 2 < c1.length
        · rw [if_pos h2] at h
          have h1' : (n - (((li.getD []) : List Nat).length : Int)).toNat ≤ (c1 ++ c2).length := by
            rw [List.length_append]; omega
          have h2' : (n - (((li.getD []) : List Nat).length : Int)).toNat + 2 < (c1 ++ c2).length := by
            rw [List.length_append]; omega
          rw [if_pos h1', if_pos h2']
          have ht : (c1 ++ c2).take (n - (((li.getD []) : List Nat).length : Int)).toNat
              = c1.take (n - (((li.getD []) : List Nat).length : Int)).toNat := by
            rw [List.take_append_eq_append_take, Nat.sub_eq_zero_of_le h1,
              List.take_zero, List.append_nil]
          have hd : (c1 ++ c2).drop ((n - (((li.getD []) : List Nat).length : Int)).toNat + 2)
              = c1.drop ((n - (((li.getD []) : List Nat).length : Int)).toNat + 2) ++ c2 := by
            rw [List.drop_append_eq_append_drop,
              Nat.sub_eq_zero_of_le (Nat.le_of_lt h2), List.drop_zero]
          rw [ht, hd]
          injection h with e1 e2 e3
          subst e1; subst e2; subst e3
          rfl
        · rw [if_neg h2] at h
          simp at h
      · rw [if_neg h1] at h
        simp at h

theorem lineStep_append {st st' : PState} {t : Nat} {c1 c2 rest : List Nat}
    {fr : Option RItem} (h : lineStep st t c1 = .cont st' rest fr) :
    lineStep st t (c1 ++ c2) = .cont st' (rest ++ c2) fr := by
  simp only [lineStep] at h ⊢
  cases hsp : splitAtCR c1 with
  | none => rw [hsp] at h; simp at h
  | some p =>
    obtain ⟨before, after⟩ := p
    rw [hsp] at h
    rw [splitAtCR_append_some hsp]
    cases after with
    | nil => simp at h
    | cons x after' =>
      cases after' with
      | nil => simp at h
      | cons a r =>
        dsimp only at h ⊢
        injection h with e1 e2 e3
        subst e1; subst e2; subst e3
        rfl

theorem step_cont_append {st st' : PState} {c1 c2 rest : List Nat} {fr : Option RItem}
    (h : step st c1 = .cont st' rest fr) :
    step st (c1 ++ c2) = .cont st' (rest ++ c2) fr := by
  match c1 with
  | [] => rw [step_nil] at h; simp at h
  | b :: ds =>
    obtain ⟨mo, li, le, sk⟩ := st
    cases mo with
    | idle => simp only [step] at h ⊢; exact idleStep_append h
    | body => simp only [step] at h ⊢; exact bodyStep_append h
    | tag t => simp only [step] at h ⊢; exact lineStep_append h

theorem parseRun_nil (st : PState) : parseRun st [] = ⟨[], .ok st 0⟩ := rfl

theorem step_of_ne_nil {st : PState} {data : List Nat} (h : data ≠ []) :
    step st data = (match st.mode with
      | .idle => idleStep st data
      | .body => bodyStep st data
      | .tag t => lineStep st t data) := by
  match data, h with
  | _ :: _, _ => rfl

/-- equal step results give equal parse results (the remaining iterations
are determined by the step result alone) -/
theorem parseRun_of_step_eq {st st1 : PState} {d1 d2 : List Nat}
    (h : step st d1 = step st1 d2) : parseRun st d1 = parseRun st1 d2 := by
  rw [parseRun_eq st d1, parseRun_eq st1 d2, h]

/-- a chunk ending mid-line (no CR found) resumes exactly: the combined
chunk takes one step to the same place the saved state takes from the
suffix alone -/
theorem step_eq_of_noCR {li : Option (List Nat)} {le : Option Int} {sk : List PArr}
    {t : Nat} {c1 : List Nat} (hne : c1 ≠ []) (hsp : splitAtCR c1 = none)
    (c2 : List Nat) :
    step ⟨.tag t, li, le, sk⟩ (c1 ++ c2)
      = step ⟨.tag t, some (li.getD [] ++ c1), le, sk⟩ c2 := by
  cases c2 with
  | nil =>
    rw [List.append_nil, step_nil, step_of_ne_nil hne]
    dsimp only
    simp only [lineStep]
    rw [hsp]
    dsimp only [lineAcc]
  | cons y c2' =>
    rw [step_of_ne_nil (by simp [hne]), step_of_ne_nil (by simp)]
    dsimp only
    simp only [lineStep]
    rw [splitAtCR_append_none hsp]
    cases hc2 : splitAtCR (y :: c2') with
    | none =>
      dsimp only [Option.map_none', lineAcc]
      simp [List.append_assoc]
    | some p =>
      obtain ⟨b2, a2⟩ := p
      dsimp only [Option.map_some', lineAcc]
      simp [List.append_assoc]

/-- a chunk hitting a `NaN` bulk length discards its tail; the saved state
behaves identically on the suffix -/
theorem step_eq_of_bodyNaN {li : Option (List Nat)} {sk : List PArr} {c1 : List Nat}
    (hne : c1 ≠ []) (c2 : List Nat) :
    step ⟨.body, li, none, sk⟩ (c1 ++ c2)
      = step ⟨.body, some (li.getD []), none, sk⟩ c2 := by
  cases c2 with
  | nil =>
    rw [List.append_nil, step_nil, step_of_ne_nil hne]
    dsimp only
    simp only [bodyStep]
    dsimp only [lineAcc]
  | cons y c2' =>
    rw [step_of_ne_nil (by simp [hne]), step_of_ne_nil (by simp)]
    dsimp only
    simp only [bodyStep]
    dsimp only [lineAcc, Option.getD_some]

/-- a chunk ending mid-bulk-body resumes exactly -/
theorem step_eq_of_bodyPartial {li : Option (List Nat)} {sk : List PArr} {n : Int}
    {c1 : List Nat} (hne : c1 ≠ [])
    (hge : ¬ n < (((li.getD [] : List Nat)).length : Int))
    (hpart : c1.length < (n - (((li.getD [] : List Nat)).length : Int)).toNat)
    (c2 : List Nat) :
    step ⟨.body, li, some n, sk⟩ (c1 ++ c2)
      = step ⟨.body, some (li.getD [] ++ c1), some n, sk⟩ c2 := by
  have hge1 : ¬ n < ((((li.getD [] ++ c1) : List Nat)).length : Int) := by
    rw [List.length_append]; push_cast; omega
  cases c2 with
  | nil =>
    rw [List.append_nil, step_nil, step_of_ne_nil hne]
    dsimp only
    simp only [bodyStep, lineAcc]
    rw [if_neg hge,
      if_neg (by omega : ¬ (n - (((li.getD [] : List Nat)).length : Int)).toNat ≤ c1.length)]
  | cons y c2' =>
    rw [step_of_ne_nil (by simp), step_of_ne_nil (by simp)]
    dsimp only
    simp only [bodyStep, lineAcc, Option.getD_some]
    rw [if_neg hge, if_neg hge1]
    have htn : (n - (((li.getD [] ++ c1) : List Nat).length : Int)).toNat
        = (n - (((li.getD [] : List Nat)).length : Int)).toNat - c1.length := by
      rw [List.length_append]; omega
    by_cases hpos : (n - (((li.getD [] ++ c1) : List Nat).length : Int)).toNat ≤ (y :: c2').length
    · rw [if_pos (show (n - (((li.getD [] : List Nat)).length : Int)).toNat
          ≤ (c1 ++ y :: c2').length by rw [List.length_append]; omega), if_pos hpos]
      have hbody : li.getD []
            ++ (c1 ++ y :: c2').take (n - (((li.getD [] : List Nat)).length : Int)).toNat
          = (li.getD [] ++ c1)
            ++ (y :: c2').take (n - (((li.getD [] ++ c1) : List Nat).length : Int)).toNat := by
        rw [List.take_append_eq_append_take, List.take_of_length_le (by omega), htn,
          List.append_assoc]
      have hdrop : (c1 ++ y :: c2').drop
            ((n - (((li.getD [] : List Nat)).length : Int)).toNat + 2)
          = (y :: c2').drop
            ((n - (((li.getD [] ++ c1) : List Nat).length : Int)).toNat + 2) := by
        rw [List.drop_append_eq_append_drop, List.drop_of_length_le (by omega), htn,
          List.nil_append]
        congr 1
        omega
      by_cases h2 : (n - (((li.getD [] ++ c1) : List Nat).length : Int)).toNat + 2
          < (y :: c2').length
      · rw [if_pos (show (n - (((li.getD [] : List Nat)).length : Int)).toNat + 2
            < (c1 ++ y :: c2').length by rw [List.length_append]; omega), if_pos h2, hbody, hdrop]
      · rw [if_neg (show ¬ (n - (((li.getD [] : List Nat)).length : Int)).toNat + 2
            < (c1 ++ y :: c2').length by rw [List.length_append]; omega), if_neg h2, hbody]
        have hov : (n - (((li.getD [] : List Nat)).length : Int)).toNat + 2
              - (c1 ++ y :: c2').length
            = (n - (((li.getD [] ++ c1) : List Nat).length : Int)).toNat + 2
              - (y :: c2').length := by
          rw [List.length_append]; omega
        rw [hov]
    · rw [if_neg (show ¬ (n - (((li.getD [] : List Nat)).length : Int)).toNat
          ≤ (c1 ++ y :: c2').length by rw [List.length_append]; omega), if_neg hpos]
      rw [List.append_assoc]

/-- a `parse` call that exits with no pending overshoot composes: the rest
of the stream is parsed from the saved state exactly as if it had been part
of the same chunk -/
theorem parseRun_stop0_append {st st1 : PState} {c1 : List Nat} {fr : Option RItem}
    (hne : c1 ≠ []) (h : step st c1 = .stop st1 0 fr) (c2 : List Nat) :
    parseRun st (c1 ++ c2) = ⟨fr.toList ++ (parseRun st1 c2).frames, (parseRun st1 c2).out⟩ := by
  obtain ⟨mo, li, le, sk⟩ := st
  rw [step_of_ne_nil hne] at h
  cases mo with
  | idle =>
    exfalso
    match c1, hne with
    | b :: ds, _ =>
      dsimp only at h
      simp only [idleStep] at h
      split at h
      · match ds, h with
        | [], h =>
          injection h with e1 e2 e3
          exact absurd e2 one_ne_zero
        | _ :: _, h => simp at h
      · split at h
        · simp at h
        · simp at h
  | body =>
    dsimp only at h
    cases le with
    | none =>
      simp only [bodyStep] at h
      injection h with e1 e2 e3
      subst e1; subst e3
      rw [parseRun_of_step_eq (step_eq_of_bodyNaN hne c2)]
      simp [lineAcc]
    | some n =>
      simp only [bodyStep, lineAcc] at h
      by_cases hlt : n < (((li.getD [] : List Nat)).length : Int)
      · rw [if_pos hlt] at h; simp at h
      · rw [if_neg hlt] at h
        by_cases h1 : (n - (((li.getD [] : List Nat)).length : Int)).toNat ≤ c1.length
        · rw [if_pos h1] at h
          by_cases h2 : (n - (((li.getD [] : List Nat)).length : Int)).toNat + 2 < c1.length
          · rw [if_pos h2] at h; simp at h
          · rw [if_neg h2] at h
            injection h with e1 e2 e3
            have hexact : (n - (((li.getD [] : List Nat)).length : Int)).toNat + 2
                = c1.length := by omega
            subst e1; subst e3
            cases c2 with
            | nil =>
              rw [List.append_nil, parseRun_eq, step_of_ne_nil hne]
              dsimp only
              simp only [bodyStep, lineAcc]
              rw [if_neg hlt, if_pos h1, if_neg h2, parseRun_nil]
              have hov : (n - (((li.getD [] : List Nat)).length : Int)).toNat + 2
                  - c1.length = 0 := by omega
              rw [hov]
              simp
            | cons y c2' =>
              rw [parseRun_eq]
              have hcomb : step ⟨.body, li, some n, sk⟩ (c1 ++ y :: c2')
                  = .cont ⟨.idle,
                      some (li.getD []
                        ++ c1.take (n - (((li.getD [] : List Nat)).length : Int)).toNat),
                      some n,
                      (pushItem sk (.buf (li.getD []
                        ++ c1.take (n - (((li.getD [] : List Nat)).length : Int)).toNat))).1⟩
                    (y :: c2')
                    (pushItem sk (.buf (li.getD []
                      ++ c1.take (n - (((li.getD [] : List Nat)).length : Int)).toNat))).2 := by
                rw [step_of_ne_nil (by simp)]
                dsimp only
                simp only [bodyStep, lineAcc]
                rw [if_neg hlt,
                  if_pos (show (n - (((li.getD [] : List Nat)).length : Int)).toNat
                    ≤ (c1 ++ y :: c2').length by rw [List.length_append]; omega),
                  if_pos (show (n - (((li.getD [] : List Nat)).length : Int)).toNat + 2
                    < (c1 ++ y :: c2').length by rw [List.length_append]; simp; omega)]
                have ht : (c1 ++ y :: c2').take
                      (n - (((li.getD [] : List Nat)).length : Int)).toNat
                    = c1.take (n - (((li.getD [] : List Nat)).length : Int)).toNat := by
                  rw [List.take_append_eq_append_take, Nat.sub_eq_zero_of_le h1,
                    List.take_zero, List.append_nil]
                have hd : (c1 ++ y :: c2').drop
                      ((n - (((li.getD [] : List Nat)).length : Int)).toNat + 2)
                    = y :: c2' := by
                  rw [hexact, List.drop_left]
                rw [ht, hd]
              rw [hcomb]
        · rw [if_neg h1] at h
          injection h with e1 e2 e3
          subst e1; subst e3
          rw [parseRun_of_step_eq (step_eq_of_bodyPartial hne hlt (by omega) c2)]
          simp [lineAcc]
  | tag t =>
    dsimp only at h
    simp only [lineStep] at h
    cases hsp : splitAtCR c1 with
    | none =>
      rw [hsp] at h
      dsimp only at h
      injection h with e1 e2 e3
      subst e1; subst e3
      rw [parseRun_of_step_eq (by
        have hA : step ⟨.tag t, li, le, sk⟩ (c1 ++ c2)
            = step ⟨.tag t, some (li.getD [] ++ c1), le, sk⟩ c2 := step_eq_of_noCR hne hsp c2
        simpa [lineAcc] using hA)]
      simp [lineAcc]
    | some p =>
      obtain ⟨before, after⟩ := p
      rw [hsp] at h
      cases after with
      | nil =>
        dsimp only at h
        injection h with e1 e2 e3
        exact absurd e2 one_ne_zero
      | cons x after' =>
        cases after' with
        | cons a r => dsimp only at h; simp at h
        | nil =>
          dsimp only at h
          injection h with e1 e2 e3
          subst e1; subst e3
          cases c2 with
          | nil =>
            rw [List.append_nil, parseRun_eq, step_of_ne_nil hne]
            dsimp only
            simp only [lineStep]
            rw [hsp]
            dsimp only
            rw [parseRun_nil]
            simp
          | cons y c2' =>
            rw [parseRun_eq, step_of_ne_nil (by simp)]
            dsimp only
            simp only [lineStep]
            rw [splitAtCR_append_some hsp]
            simp only [List.singleton_append]

/-- Composition of `parse` over chunk concatenation, provided the first
chunk ends without overshoot.  `fs` frames already dispatched by the first
chunk come first, then whatever the second chunk produces from the saved
state. -/
theorem parseRun_append : ∀ (n : Nat) (c1 : List Nat), c1.length ≤ n →
    ∀ (c2 : List Nat) (st st1 : PState) (fs : List RItem),
    parseRun st c1 = ⟨fs, .ok st1 0⟩ →
    parseRun st (c1 ++ c2) = ⟨fs ++ (parseRun st1 c2).frames, (parseRun st1 c2).out⟩ := by
  intro n
  induction n with
  | zero =>
    intro c1 hn c2 st st1 fs h
    match c1, hn with
    | [], _ =>
      rw [parseRun_nil] at h
      injection h with e1 e2
      injection e2 with e3 e4
      subst e1; subst e3
      simp
  | succ m ih =>
    intro c1 hn c2 st st1 fs h
    cases hc1 : c1 with
    | nil =>
      subst hc1
      rw [parseRun_nil] at h
      injection h with e1 e2
      injection e2 with e3 e4
      subst e1; subst e3
      simp
    | cons b ds =>
      subst hc1
      rw [parseRun_eq] at h
      cases hstep : step st (b :: ds) with
      | cont st2 rest fr =>
        rw [hstep] at h
        dsimp only at h
        injection h with e1 e2
        have hlt := step_cont_length hstep
        have hout : (parseRun st2 rest).out = .ok st1 0 := e2
        have hfr : fs = fr.toList ++ (parseRun st2 rest).frames := e1.symm
        have ihr := ih rest (by simpa using Nat.lt_succ_iff.mp (by
          simpa using Nat.lt_of_lt_of_le hlt hn)) c2 st2 st1 (parseRun st2 rest).frames
          (by rw [← hout])
        rw [parseRun_eq, step_cont_append hstep]
        dsimp only
        rw [ihr, hfr]
        simp [List.append_assoc]
      | stop st2 over fr =>
        rw [hstep] at h
        dsimp only at h
        injection h with e1 e2
        injection e2 with e3 e4
        subst e3; subst e4; subst e1
        exact parseRun_stop0_append (by simp) hstep c2
      | fault =>
        rw [hstep] at h
        dsimp only at h
        injection h with e1 e2
        simp at e2
      | hang =>
        rw [hstep] at h
        dsimp only at h
        injection h with e1 e2
        simp at e2

/-! ## Decimal rendering round-trips through `parseInt` -/

theorem natDecGo_bounds : ∀ (fuel n : Nat), ∀ d ∈ natDecGo fuel n, 48 ≤ d ∧ d ≤ 57 := by
  intro fuel
  induction fuel with
  | zero => intro n d hd; simp [natDecGo] at hd
  | succ f ih =>
    intro n d hd
    cases n with
    | zero => simp [natDecGo] at hd
    | succ m =>
      simp only [natDecGo, List.mem_append, List.mem_singleton] at hd
      rcases hd with hd | hd
      · exact ih _ d hd
      · subst hd
        have hm : (m + 1) % 10 < 10 := Nat.mod_lt _ (by omega)
        exact ⟨by omega, by omega⟩

theorem natDec_bounds : ∀ (n : Nat), ∀ d ∈ natDec n, 48 ≤ d ∧ d ≤ 57 := by
  intro n d hd
  simp only [natDec] at hd
  split at hd
  · simp at hd; exact ⟨by omega, by omega⟩
  · exact natDecGo_bounds _ _ d hd

theorem natDec_not_cr (n : Nat) : (13 : Nat) ∉ natDec n := by
  intro hmem
  have h13 := natDec_bounds n 13 hmem
  obtain ⟨h1, h2⟩ := h13
  omega

theorem natDec_ne_nil (n : Nat) : natDec n ≠ [] := by
  simp only [natDec]
  split
  · simp
  · next hn =>
    match n, hn with
    | m + 1, _ => simp [natDecGo]

theorem decValue_append_digit (xs : List Nat) (d : Nat) :
    decValue (xs ++ [d]) = decValue xs * 10 + (d - 48) := by
  simp [decValue, List.foldl_append]

theorem decValue_natDecGo : ∀ (fuel n : Nat), n < fuel → decValue (natDecGo fuel n) = n := by
  intro fuel
  induction fuel with
  | zero => intro n h; omega
  | succ f ih =>
    intro n h
    cases n with
    | zero => simp [natDecGo, decValue]
    | succ m =>
      rw [natDecGo, decValue_append_digit]
      rw [ih ((m + 1) / 10) (by omega)]
      have hm : (m + 1) % 10 < 10 := Nat.mod_lt _ (by omega)
      omega

theorem decValue_natDec (n : Nat) : decValue (natDec n) = n := by
  simp only [natDec]
  split
  · next h => simp [h, decValue]
  · exact decValue_natDecGo _ _ (by omega)

theorem leadDigits_eq_self {s : List Nat} (h : ∀ d ∈ s, 48 ≤ d ∧ d ≤ 57) :
    leadDigits s = s := by
  induction s with
  | nil => rfl
  | cons x xs ih =>
    have hx := h x (by simp)
    simp only [leadDigits, List.takeWhile_cons]
    rw [if_pos (by simpa using hx)]
    have := ih (fun d hd => h d (by simp [hd]))
    simp only [leadDigits] at this
    rw [this]

theorem jsParseInt_digits {s : List Nat} (hs : s ≠ []) (h : ∀ d ∈ s, 48 ≤ d ∧ d ≤ 57) :
    jsParseInt s = some ((decValue s : Int)) := by
  match s, hs with
  | x :: xs, _ =>
    obtain ⟨hx1, hx2⟩ := h x (by simp)
    simp only [jsParseInt, List.dropWhile_cons]
    rw [if_neg (by
      intro hws
      simp only [isJsWS, Bool.or_eq_true, decide_eq_true_eq] at hws
      rcases hws with hw | hw | hw | hw | hw | hw <;> omega)]
    dsimp only
    rw [if_neg (by omega), if_neg (by omega)]
    rw [show leadDigits (x :: xs) = x :: xs from leadDigits_eq_self h]
    simp

theorem jsParseInt_natDec (n : Nat) : jsParseInt (natDec n) = some ((n : Int)) := by
  rw [jsParseInt_digits (natDec_ne_nil n) (natDec_bounds n), decValue_natDec]

/-! ## The decoder never reads the second terminator byte -/

theorem splitAtCR_of_not_mem {before : List Nat} (h : (13 : Nat) ∉ before)
    (after : List Nat) : splitAtCR (before ++ 13 :: after) = some (before, after) := by
  induction before with
  | nil => simp [splitAtCR]
  | cons x xs ih =>
    simp only [List.cons_append, splitAtCR, List.append_eq]
    rw [if_neg (by intro hx; exact h (by simp [hx]))]
    rw [ih (fun hm => h (by simp [hm]))]
    rfl

theorem idleStep_cons (st : PState) (b : Nat) (rest : List Nat) :
    idleStep st (b :: rest) =
      if b = 13 then
        match rest with
        | [] => .stop st 1 none
        | _ :: rest' => .cont st rest' none
      else if validTag b then
        .cont { st with mode := .tag b, line := none, length := none } rest none
      else .fault := rfl

/-- for a line frame (`:`/`+`/`-`), the byte after the terminating CR is
skipped without being read -/
theorem lineTermSkipBlind (st : PState) (hmode : st.mode = .idle) (t : Nat)
    (ht : t = 58 ∨ t = 43 ∨ t = 45) (line : List Nat) (hline : (13 : Nat) ∉ line)
    (b b' : Nat) (rest : List Nat) :
    parseRun st (t :: line ++ 13 :: b :: rest) = parseRun st (t :: line ++ 13 :: b' :: rest) := by
  obtain ⟨mo, li, le, sk⟩ := st
  subst hmode
  have ht13 : ¬ t = 13 := by rcases ht with rfl | rfl | rfl <;> omega
  have htv : validTag t = true := by rcases ht with rfl | rfl | rfl <;> rfl
  rw [parseRun_eq ⟨Mode.idle, li, le, sk⟩ (t :: line ++ 13 :: b :: rest),
    parseRun_eq ⟨Mode.idle, li, le, sk⟩ (t :: line ++ 13 :: b' :: rest),
    step_of_ne_nil (by simp), step_of_ne_nil (by simp)]
  simp only [List.cons_append, idleStep_cons, if_neg ht13, if_pos htv]
  rw [parseRun_eq ⟨Mode.tag t, none, none, sk⟩ (line ++ 13 :: b :: rest),
    parseRun_eq ⟨Mode.tag t, none, none, sk⟩ (line ++ 13 :: b' :: rest),
    step_of_ne_nil (by simp), step_of_ne_nil (by simp)]
  simp only [lineStep, splitAtCR_of_not_mem hline]
  cases rest with
  | nil => rfl
  | cons y r => rfl

/-- for a bulk frame, neither the byte after the length line's CR nor the
byte after the body's CR is ever read -/
theorem bulkTermSkipBlind (st : PState) (hmode : st.mode = .idle)
    (bdy : List Nat) (b1 b1' b2 b2' : Nat) (rest : List Nat) :
    parseRun st (36 :: (natDec bdy.length ++ 13 :: b1 :: (bdy ++ 13 :: b2 :: rest)))
      = parseRun st (36 :: (natDec bdy.length ++ 13 :: b1' :: (bdy ++ 13 :: b2' :: rest))) := by
  obtain ⟨mo, li, le, sk⟩ := st
  subst hmode
  rw [parseRun_eq ⟨Mode.idle, li, le, sk⟩
      (36 :: (natDec bdy.length ++ 13 :: b1 :: (bdy ++ 13 :: b2 :: rest))),
    parseRun_eq ⟨Mode.idle, li, le, sk⟩
      (36 :: (natDec bdy.length ++ 13 :: b1' :: (bdy ++ 13 :: b2' :: rest))),
    step_of_ne_nil (by simp), step_of_ne_nil (by simp)]
  simp only [idleStep_cons, if_neg (show ¬ (36 : Nat) = 13 by omega),
    if_pos (show validTag 36 = true from rfl)]
  have hm1 : ¬ (some ((bdy.length : Int)) = some (-1)) := by simp
  rw [parseRun_eq ⟨Mode.tag 36, none, none, sk⟩
      (natDec bdy.length ++ 13 :: b1 :: (bdy ++ 13 :: b2 :: rest)),
    parseRun_eq ⟨Mode.tag 36, none, none, sk⟩
      (natDec bdy.length ++ 13 :: b1' :: (bdy ++ 13 :: b2' :: rest)),
    step_of_ne_nil (by simp), step_of_ne_nil (by simp)]
  simp only [lineStep, splitAtCR_of_not_mem (natDec_not_cr bdy.length), lineAcc,
    Option.getD_none, List.nil_append, jsParseInt_natDec, if_neg hm1]
  have hex : ∀ (c : Nat), ∃ y ys, bdy ++ 13 :: c :: rest = y :: ys := by
    intro c
    cases bdy
    · exact ⟨_, _, rfl⟩
    · exact ⟨_, _, rfl⟩
  obtain ⟨y, ys, hy⟩ := hex b2
  obtain ⟨y', ys', hy'⟩ := hex b2'
  rw [hy, hy']
  dsimp only
  rw [← hy, ← hy']
  simp only [if_true]
  rw [parseRun_eq ⟨Mode.body, none, some ((bdy.length : Int)), sk⟩ (bdy ++ 13 :: b2 :: rest),
    parseRun_eq ⟨Mode.body, none, some ((bdy.length : Int)), sk⟩ (bdy ++ 13 :: b2' :: rest),
    step_of_ne_nil (by simp), step_of_ne_nil (by simp)]
  simp only [bodyStep, lineAcc, Option.getD_none]
  simp only [if_neg (by simp : ¬ ((bdy.length : Int)) < (((([] : List Nat)).length : Nat) : Int))]
  have htn : (((bdy.length : Int)) - ((((([] : List Nat)).length : Nat) : Int))).toNat
      = bdy.length := by simp
  rw [htn]
  have htake : ∀ (c : Nat), (bdy ++ 13 :: c :: rest).take bdy.length = bdy := by
    intro c
    rw [List.take_append_eq_append_take, Nat.sub_self, List.take_zero, List.append_nil,
      List.take_of_length_le (le_refl _)]
  have hdrop : ∀ (c : Nat), (bdy ++ 13 :: c :: rest).drop (bdy.length + 2) = rest := by
    intro c
    rw [List.drop_append_eq_append_drop, List.drop_of_length_le (by omega), List.nil_append]
    have h2 : bdy.length + 2 - bdy.length = 2 := by omega
    rw [h2]
    rfl
  have hlen : ∀ (c : Nat), (bdy ++ 13 :: c :: rest).length = bdy.length + 2 + rest.length := by
    intro c
    simp [List.length_append]
    omega
  cases rest with
  | nil =>
    rw [if_pos (show bdy.length ≤ (bdy ++ 13 :: b2 :: ([] : List Nat)).length by
        rw [hlen]; omega),
      if_pos (show bdy.length ≤ (bdy ++ 13 :: b2' :: ([] : List Nat)).length by
        rw [hlen]; omega),
      if_neg (show ¬ bdy.length + 2 < (bdy ++ 13 :: b2 :: ([] : List Nat)).length by
        rw [hlen]; simp),
      if_neg (show ¬ bdy.length + 2 < (bdy ++ 13 :: b2' :: ([] : List Nat)).length by
        rw [hlen]; simp)]
    simp only [htake, hlen, List.nil_append, List.length_nil, Nat.add_zero, Nat.sub_self]
  | cons z zs =>
    rw [if_pos (show bdy.length ≤ (bdy ++ 13 :: b2 :: z :: zs).length by rw [hlen]; omega),
      if_pos (show bdy.length ≤ (bdy ++ 13 :: b2' :: z :: zs).length by rw [hlen]; omega),
      if_pos (show bdy.length + 2 < (bdy ++ 13 :: b2 :: z :: zs).length by
        rw [hlen]; simp),
      if_pos (show bdy.length + 2 < (bdy ++ 13 :: b2' :: z :: zs).length by
        rw [hlen]; simp)]
    simp only [htake, hdrop, List.nil_append]

/-! ## Claim theorems: decoder -/

/-- C2 (amended): feeding a byte sequence to the decoder in two chunks
dispatches the same top-level frames, in the same order, as feeding it
whole — provided the first chunk's parse ends ok with no pending
terminator skip crossing the chunk end (overshoot 0).  A split exactly
between the CR and LF of a terminator produces overshoot 1: the decoder
loses the pending skip, reads the LF as a type tag and faults
(see the counterexample). -/
theorem c2_split_chunks_resume_exactly (c1 c2 : List Nat) (st1 : PState) (fs : List RItem)
    (h : parseRun initPState c1 = ⟨fs, .ok st1 0⟩) :
    parseRun initPState (c1 ++ c2) = ⟨fs ++ (parseRun st1 c2).frames, (parseRun st1 c2).out⟩ :=
  parseRun_append c1.length c1 (le_refl _) c2 initPState st1 fs h

/-- C2 witness: ":1\r\n" then ":2\r\n" dispatches the same frames as the
concatenation. -/
theorem c2_split_chunks_witness :
    parseRun initPState [58, 49, 13, 10] = ⟨[.int (some 1)], .ok ⟨.idle, some [49], none, []⟩ 0⟩
    ∧ parseRun initPState ([58, 49, 13, 10] ++ [58, 50, 13, 10])
      = ⟨[.int (some 1)] ++ (parseRun ⟨.idle, some [49], none, []⟩ [58, 50, 13, 10]).frames,
         (parseRun ⟨.idle, some [49], none, []⟩ [58, 50, 13, 10]).out⟩ :=
  ⟨rfl, c2_split_chunks_resume_exactly [58, 49, 13, 10] [58, 50, 13, 10]
    ⟨.idle, some [49], none, []⟩ [.int (some 1)] rfl⟩

/-- C2 counterexample: the bytes ":1\r\n:2\r\n" fed whole dispatch the
frames 1 and 2, but split exactly between the CR and LF of the first
terminator (after byte 3) the two feeds dispatch only the frame 1 and then
fault on the LF (`throw Unknown type: 10`), so the frame 2 is never
dispatched: the claim fails for this split point. -/
theorem c2_counterexample :
    (parseRun initPState ([58, 49, 13] ++ [10, 58, 50, 13, 10])).frames
        = [.int (some 1), .int (some 2)]
    ∧ (parseRun initPState [58, 49, 13]).out = .ok ⟨.idle, some [49], none, []⟩ 1
    ∧ (parseRun initPState [58, 49, 13]).frames
        ++ (parseRun ⟨.idle, some [49], none, []⟩ [10, 58, 50, 13, 10]).frames
        = [.int (some 1)]
    ∧ (parseRun ⟨.idle, some [49], none, []⟩ [10, 58, 50, 13, 10]).out = .fault :=
  ⟨rfl, rfl, rfl, rfl⟩

/-- C6: a zero-count Array is NOT an immediately-complete item.  On
"*0\r\n:5\r\n" the code pushes a never-completing size-0 array onto the
stack; the following integer 5 is absorbed into it (1 ≠ 0 elements) and no
top-level frame is ever dispatched — the decoder is wedged, contradicting
the claim that the empty array is dispatched and decoding continues. -/
theorem c6_zero_count_array_wedges :
    parseRun initPState [42, 48, 13, 10, 58, 53, 13, 10]
      = ⟨[], .ok ⟨.idle, some [53], none, [⟨some 0, [.int (some 5)]⟩]⟩ 0⟩ := rfl

/-- C10: the decoder never inspects the second byte of a terminator.  For a
line frame (tag `:`/`+`/`-`) the byte after the CR is skipped blindly, and
for a bulk frame both the byte after the length line's CR and the byte
after the declared body are skipped blindly, so replacing the LF-position
byte by any byte gives the identical parse result. -/
theorem c10_terminator_second_byte_ignored :
    (∀ (st : PState), st.mode = .idle → ∀ (t : Nat), (t = 58 ∨ t = 43 ∨ t = 45) →
      ∀ (line : List Nat), (13 : Nat) ∉ line → ∀ (b b' : Nat) (rest : List Nat),
      parseRun st (t :: line ++ 13 :: b :: rest) = parseRun st (t :: line ++ 13 :: b' :: rest))
    ∧ (∀ (st : PState), st.mode = .idle → ∀ (bdy : List Nat) (b1 b1' b2 b2' : Nat)
        (rest : List Nat),
      parseRun st (36 :: (natDec bdy.length ++ 13 :: b1 :: (bdy ++ 13 :: b2 :: rest)))
        = parseRun st (36 :: (natDec bdy.length ++ 13 :: b1' :: (bdy ++ 13 :: b2' :: rest)))) :=
  ⟨lineTermSkipBlind, bulkTermSkipBlind⟩

/-- C10 witness: ":1" terminated by CR + 'A' parses like CR-LF, and a
1-byte bulk with junk terminator bytes parses like one with CR-LF. -/
theorem c10_terminator_witness :
    parseRun initPState (58 :: [49] ++ 13 :: 65 :: [43, 75, 13, 66])
      = parseRun initPState (58 :: [49] ++ 13 :: 10 :: [43, 75, 13, 66])
    ∧ parseRun initPState
        (36 :: (natDec ([97] : List Nat).length ++ 13 :: 65 :: ([97] ++ 13 :: 66 :: [])))
      = parseRun initPState
        (36 :: (natDec ([97] : List Nat).length ++ 13 :: 10 :: ([97] ++ 13 :: 10 :: []))) :=
  ⟨c10_terminator_second_byte_ignored.1 initPState rfl 58 (Or.inl rfl) [49] (by decide)
      65 10 [43, 75, 13, 66],
    c10_terminator_second_byte_ignored.2 initPState rfl [97] 65 10 66 10 []⟩

/-! ## Keyspace and command handlers -/

/-- a stored entry `{ v: value, e: expiry }`.  `e = none` models both JS
`null` and `NaN`: the two are observationally identical here, since every
read of `data.e` is guarded by falsiness (`!data.e`, `data.e && ...`). -/
structure Entry where
  v : RItem
  e : Option Int

/-- the shared keyspace `this.data`: a JS `Map` (insertion order preserved,
`set` on an existing key keeps its position, keys unique) together with the
`changed` property stored on it -/
structure KS where
  entries : List (List Nat × Entry)
  changed : Bool

/-- a fresh server keyspace: `new Map()`, `changed` unset (falsy) -/
def initKS : KS := ⟨[], false⟩

/-- `this.data.has(key)` -/
def ksHas (ks : KS) (k : List Nat) : Bool := ks.entries.any (fun p => decide (p.1 = k))

/-- `this.data.get(key)` -/
def ksGet (ks : KS) (k : List Nat) : Option Entry :=
  (ks.entries.find? (fun p => decide (p.1 = k))).map (fun p => p.2)

/-- `map.set(k, en)`: replace in place if the key exists, else append -/
def ksSet : List (List Nat × Entry) → List Nat → Entry → List (List Nat × Entry)
  | [], k, en => [(k, en)]
  | p :: rest, k, en => if p.1 = k then (k, en) :: rest else p :: ksSet rest k en

/-- `map.delete(k)` (keys are unique, so at most one occurrence) -/
def ksDelete : List (List Nat × Entry) → List Nat → List (List Nat × Entry)
  | [], _ => []
  | p :: rest, k => if p.1 = k then rest else p :: ksDelete rest k

/-- `string(val)`: strings pass through, Buffers and numbers via
`toString`.  `null`/`undefined`/arrays would throw or stringify oddly; no
claim reaches those cases, they map to `[]`. -/
def jsString : RItem → List Nat
  | .str s => s
  | .buf b => b
  | .int (some v) => intDec v
  | .int none => bs "NaN"
  | _ => []

/-- `number(val)`: numbers pass through, everything else via `parseInt` -/
def jsNumber : RItem → Option Int
  | .int v => v
  | .str s => jsParseInt s
  | .buf b => jsParseInt b
  | _ => none

/-- `summary(val)`: values longer than 20 are truncated with `...` -/
def summaryBytes : RItem → List Nat
  | .str s => if 20 < s.length then s.take 20 ++ bs "..." else s
  | .buf b => if 20 < b.length then b.take 20 ++ bs "..." else b
  | .int (some v) => intDec v
  | .int none => bs "NaN"
  | _ => []

/-- ASCII `toUpperCase` -/
def upperByte (b : Nat) : Nat := if 97 ≤ b ∧ b ≤ 122 then b - 32 else b

/-- ASCII `toUpperCase` on a byte string -/
def toUpperBytes (s : List Nat) : List Nat := s.map upperByte

/-- JS truthiness of an expiry (`data.e && ...`): `null`, `NaN`, `0` falsy -/
def truthyE : Option Int → Bool
  | none => false
  | some v => if v = 0 then false else true

/-- result of one command handler: new keyspace, replies written in order,
and whether the handler threw an exception -/
structure CmdRes where
  ks : KS
  replies : List RItem
  fault : Bool

/-- the option-scan loop of `runSet`.  Dangling-else fidelity: in the source

```
if (arg === 'EX') data.e = Date.now() + number(args.shift()) * 1000;
else if (arg === 'PX') data.e = Date.now() + number(args.shift());
else if (arg === 'NX') if (this.data.has(key)) return this.respond(null);
else if (arg === 'XX') if (!this.data.has(key)) return this.respond(null);
else return this.error('Unknown SET argument: ' + arg);
```

each `else` binds to the NEAREST `if`, so the `XX` test and the
unknown-argument error are nested INSIDE the NX branch under the
unsatisfiable guard `arg === 'NX' && !has(key) && arg === 'XX'`: for any
argument other than EX, PX and NX the iteration is a no-op. -/
def runSetLoop (ks : KS) (now : Int) (key : List Nat) (v : RItem) :
    Option Int → List RItem → CmdRes
  | e, [] => ⟨⟨ksSet ks.entries key ⟨v, e⟩, true⟩, [.str (bs "OK")], false⟩
  | e, a :: args =>
    let arg := toUpperBytes (summaryBytes a)
    if arg = bs "EX" then
      match args with
      | [] => runSetLoop ks now key v none []
      | n :: args' => runSetLoop ks now key v ((jsNumber n).map (fun x => now + x * 1000)) args'
    else if arg = bs "PX" then
      match args with
      | [] => runSetLoop ks now key v none []
      | n :: args' => runSetLoop ks now key v ((jsNumber n).map (fun x => now + x)) args'
    else if arg = bs "NX" then
      if ksHas ks key then ⟨ks, [.nullv], false⟩
      else runSetLoop ks now key v e args
    else runSetLoop ks now key v e args

/-- `runSet(key, value, ...args)` -/
def runSet (ks : KS) (now : Int) (key v : RItem) (args : List RItem) : CmdRes :=
  runSetLoop ks now (jsString key) v none args

/-- the shift-loop of `runMset` (an odd final key gets value `undefined`) -/
def runMsetLoop (entries : List (List Nat × Entry)) : List RItem → List (List Nat × Entry)
  | [] => entries
  | k :: args =>
    match args with
    | [] => ksSet entries (jsString k) ⟨.undef, none⟩
    | v :: args' => runMsetLoop (ksSet entries (jsString k) ⟨v, none⟩) args'

/-- `runMset`: set all pairs with no TTL, mark dirty, reply OK -/
def runMset (ks : KS) (args : List RItem) : CmdRes :=
  ⟨⟨runMsetLoop ks.entries args, true⟩, [.str (bs "OK")], false⟩

/-- the first loop of `runMsetnx`: scan for an existing key (returning
`none` aborts with reply 0 before anything is written), collecting the
pairs to set -/
def msetnxScan (ks : KS) : List RItem → Option (List (List Nat × RItem))
  | [] => some []
  | k :: args =>
    let key := jsString k
    if ksHas ks key then none
    else
      match args with
      | [] => (msetnxScan ks []).map (fun l => (key, .undef) :: l)
      | v :: args' => (msetnxScan ks args').map (fun l => (key, v) :: l)

/-- `runMsetnx`: all-or-nothing; only after the scan passes are the pairs
written, `changed` set and 1 replied -/
def runMsetnx (ks : KS) (args : List RItem) : CmdRes :=
  match msetnxScan ks args with
  | none => ⟨ks, [.int (some 0)], false⟩
  | some pairs =>
    ⟨⟨pairs.foldl (fun es p => ksSet es p.1 ⟨p.2, none⟩) ks.entries, true⟩,
      [.int (some 1)], false⟩

/-- `runDel`: delete the existing keys among the arguments; `changed` is
set unconditionally; reply = number removed -/
def runDel (ks : KS) (args : List RItem) : CmdRes :=
  let keys := (args.map jsString).filter (fun k => ksHas ks k)
  ⟨⟨keys.foldl ksDelete ks.entries, true⟩, [.int (some ((keys.length : Int)))], false⟩

/-- `runFlushall`: `this.data.clear()` removes all entries; `clear()` is a
`Map` method and does not touch the `changed` property, and the handler
never sets it — the keyspace is emptied WITHOUT being marked dirty. -/
def runFlushall (ks : KS) : CmdRes := ⟨⟨[], ks.changed⟩, [.str (bs "OK")], false⟩

/-- `runFlushdb` delegates to `runFlushall` -/
def runFlushdb (ks : KS) : CmdRes := runFlushall ks

/-- `runDbsize` replies `this.data.length`; a JS `Map` exposes `size`, not
`length`, so the property access yields `undefined`. -/
def runDbsize (ks : KS) : CmdRes := ⟨ks, [.undef], false⟩

/-- `runExpireat`: on a missing key the code runs `this.respond(0)` with NO
`return`, falls through to `data.e = stamp` and throws a TypeError on the
`undefined` entry (`fault := true`, keyspace and `changed` untouched); on a
present key it sets the absolute expiry, marks dirty and replies 1. -/
def runExpireat (ks : KS) (keyArg stampArg : RItem) : CmdRes :=
  let key := jsString keyArg
  let stamp := jsNumber stampArg
  match ksGet ks key with
  | none => ⟨ks, [.int (some 0)], true⟩
  | some en => ⟨⟨ksSet ks.entries key ⟨en.v, stamp⟩, true⟩, [.int (some 1)], false⟩

/-- `runExpire key s` = `runExpireat key (now + s*1000)` -/
def runExpire (ks : KS) (now : Int) (keyArg ttlArg : RItem) : CmdRes :=
  runExpireat ks keyArg (.int ((jsNumber ttlArg).map (fun t => now + t * 1000)))

/-- `runPexpire key ms` = `runExpireat key (now + ms)` -/
def runPexpire (ks : KS) (now : Int) (keyArg ttlArg : RItem) : CmdRes :=
  runExpireat ks keyArg (.int ((jsNumber ttlArg).map (fun t => now + t)))

/-- one `SET` line of the DUMPALL transcript: `['SET', key, v]` plus
`['PX', remaining]` only when the expiry is truthy and in the future -/
def dumpCmd (now : Int) (p : List Nat × Entry) : RItem :=
  .arr ([.str (bs "SET"), .str p.1, p.2.v] ++
    (if truthyE p.2.e ∧ now < p.2.e.getD 0 then
      [.str (bs "PX"), .int (some (p.2.e.getD 0 - now))] else []))

/-- `runDumpall`: respond `['FLUSHDB']`, then one `SET` line per entry in
insertion order -/
def runDumpall (ks : KS) (now : Int) : CmdRes :=
  ⟨ks, .arr [.str (bs "FLUSHDB")] :: ks.entries.map (dumpCmd now), false⟩

/-! ## Reply encoder -/

mutual
/-- `RedisConnection.respond`: serialize one reply value to wire bytes -/
def respondBytes : RItem → List Nat
  | .arr items => 42 :: (natDec items.length ++ [13, 10] ++ respondList items)
  | .buf b => 36 :: (natDec b.length ++ [13, 10] ++ b ++ [13, 10])
  | .str s => 43 :: (s ++ [13, 10])
  | .int (some v) => 58 :: (intDec v ++ [13, 10])
  | .int none => 58 :: (bs "NaN" ++ [13, 10])
  | .nullv => bs "$-1" ++ [13, 10]
  | .undef => bs "$-1" ++ [13, 10]

/-- serialize a list of replies back to back -/
def respondList : List RItem → List Nat
  | [] => []
  | x :: xs => respondBytes x ++ respondList xs
end

/-! ## Dispatcher and persistence pipeline -/

/-- `RedisConnection.run`: wrap a scalar frame in a one-element list, shift
the command word, dispatch case-insensitively.  A command frame that is
neither a string nor a Buffer has no `slice` method (TypeError).  Only the
handlers embedded above are wired here; for a name outside this set the
code writes an `UNKNOWN COMMAND` error line directly to the wire (no
keyspace effect), which is all the claims need. -/
def runCmd (ks : KS) (now : Int) (name : List Nat) (args : List RItem) : CmdRes :=
  if name = bs "FLUSHALL" ∨ name = bs "FLUSHDB" then runFlushall ks
  else if name = bs "SET" then
    runSet ks now (args.getD 0 .undef) (args.getD 1 .undef) (args.drop 2)
  else if name = bs "MSET" then runMset ks args
  else if name = bs "MSETNX" then runMsetnx ks args
  else if name = bs "DEL" then runDel ks args
  else if name = bs "DBSIZE" then runDbsize ks
  else if name = bs "EXPIREAT" then runExpireat ks (args.getD 0 .undef) (args.getD 1 .undef)
  else if name = bs "EXPIRE" then runExpire ks now (args.getD 0 .undef) (args.getD 1 .undef)
  else if name = bs "PEXPIRE" then runPexpire ks now (args.getD 0 .undef) (args.getD 1 .undef)
  else if name = bs "DUMPALL" then runDumpall ks now
  else ⟨ks, [], false⟩

/-- dispatch one decoded top-level frame -/
def runTop (ks : KS) (now : Int) (f : RItem) : CmdRes :=
  let args := match f with | .arr l => l | x => [x]
  match args with
  | [] => ⟨ks, [], true⟩
  | cmd :: rest =>
    match cmd with
    | .str s => runCmd ks now (toUpperBytes s) rest
    | .buf b => runCmd ks now (toUpperBytes b) rest
    | _ => ⟨ks, [], true⟩

/-- replay dispatched frames against a keyspace; a thrown handler aborts
the replay (the exception propagates out of the `data` handler) -/
def runFrames (now : Int) : KS → List RItem → KS
  | ks, [] => ks
  | ks, f :: fs =>
    let r := runTop ks now f
    if r.fault then r.ks else runFrames now r.ks fs

/-- `RedisServer.load`: parse the snapshot bytes on a LOADER connection
with no out-stream (replies discarded); every dispatched frame replays
against a fresh keyspace -/
def loadKS (data : List Nat) (now : Int) : KS :=
  runFrames now initKS (parseRun initPState data).frames

/-- the byte stream a save writes: the SAVER connection feeds itself
`*1\r\n+DUMPALL\r\n*1\r\n+QUIT\r\n`; the DUMPALL replies, as encoded by
`respond`, become the file contents (QUIT writes nothing) -/
def serverSaveBytes (ks : KS) (now : Int) : List Nat :=
  respondList (runDumpall ks now).replies

/-- `RedisServer.save`: no-op while the keyspace is clean (or when no
filename is configured — the model assumes one is); clears `changed` as
the snapshot write begins -/
def serverSave (ks : KS) (now : Int) : KS × List Nat :=
  if ks.changed then (⟨ks.entries, false⟩, serverSaveBytes ks now) else (ks, [])

/-! ## Claim theorems: commands -/

/-- C3: the dangling-else in `runSet` makes `XX` and unknown option
keywords no-ops: `SET k v XX` with `k` absent stores the entry and replies
OK (the claim expects a null reply and no store), `SET k v FOO` stores and
replies OK (the claim expects an Error-String and no store); only the `NX`
abort behaves as claimed. -/
theorem c3_set_xx_and_unknown_options_ignored :
    runSet initKS 0 (.buf (bs "k")) (.buf (bs "v")) [.buf (bs "XX")]
      = ⟨⟨[(bs "k", ⟨.buf (bs "v"), none⟩)], true⟩, [.str (bs "OK")], false⟩
    ∧ runSet initKS 0 (.buf (bs "k")) (.buf (bs "v")) [.buf (bs "FOO")]
      = ⟨⟨[(bs "k", ⟨.buf (bs "v"), none⟩)], true⟩, [.str (bs "OK")], false⟩
    ∧ runSet ⟨[(bs "k", ⟨.buf (bs "o"), none⟩)], false⟩ 0 (.buf (bs "k")) (.buf (bs "v"))
        [.buf (bs "NX")]
      = ⟨⟨[(bs "k", ⟨.buf (bs "o"), none⟩)], false⟩, [.nullv], false⟩ :=
  ⟨rfl, rfl, rfl⟩

/-- C5: EXPIREAT / EXPIRE / PEXPIRE on an absent key reply 0 and then
throw (the missing `return` lets `data.e = stamp` run on `undefined`),
leaving keyspace and dirty flag untouched; on a present key they set the
expiry, mark dirty and reply 1. -/
theorem c5_expire_on_missing_key_replies_0_then_throws :
    runExpireat initKS (.buf (bs "k")) (.buf (bs "123"))
      = ⟨initKS, [.int (some 0)], true⟩
    ∧ runExpire initKS 0 (.buf (bs "k")) (.buf (bs "7"))
      = ⟨initKS, [.int (some 0)], true⟩
    ∧ runPexpire initKS 0 (.buf (bs "k")) (.buf (bs "7"))
      = ⟨initKS, [.int (some 0)], true⟩
    ∧ runExpireat ⟨[(bs "k", ⟨.buf (bs "v"), none⟩)], false⟩ (.buf (bs "k")) (.buf (bs "123"))
      = ⟨⟨[(bs "k", ⟨.buf (bs "v"), some 123⟩)], true⟩, [.int (some 1)], false⟩ :=
  ⟨rfl, rfl, rfl, rfl⟩

/-- C9: DBSIZE replies `this.data.length`, but a JS `Map` has `size`, not
`length`, so the reply is `undefined` and the encoder writes the null bulk
`$-1\r\n` — never an Integer frame, whatever the keyspace holds. -/
theorem c9_dbsize_replies_null_bulk (ks : KS) :
    runDbsize ks = ⟨ks, [.undef], false⟩
    ∧ respondList (runDbsize ks).replies = bs "$-1" ++ [13, 10] :=
  ⟨rfl, rfl⟩

/-- interleave key/value pairs into a flat argument list -/
def pairsToArgs : List (RItem × RItem) → List RItem
  | [] => []
  | p :: ps => p.1 :: p.2 :: pairsToArgs ps

theorem msetnxScan_pairs (ks : KS) : ∀ (ps : List (RItem × RItem)),
    msetnxScan ks (pairsToArgs ps)
      = if ps.any (fun p => ksHas ks (jsString p.1)) then none
        else some (ps.map (fun p => (jsString p.1, p.2))) := by
  intro ps
  induction ps with
  | nil => rfl
  | cons p ps ih =>
    simp only [pairsToArgs, msetnxScan, ih]
    cases hk : ksHas ks (jsString p.1) <;>
      cases ha : ps.any (fun p => ksHas ks (jsString p.1)) <;>
        simp [hk, ha]

/-- C7: MSETNX over key/value pairs is all-or-nothing: if any named key
already exists, the reply is 0 and keyspace and dirty flag are exactly as
before; otherwise every pair is stored in order with no expiry, the
keyspace is marked dirty and the reply is 1. -/
theorem c7_msetnx_all_or_nothing (ks : KS) (ps : List (RItem × RItem)) :
    runMsetnx ks (pairsToArgs ps)
      = if ps.any (fun p => ksHas ks (jsString p.1))
        then ⟨ks, [.int (some 0)], false⟩
        else ⟨⟨(ps.map (fun p => (jsString p.1, p.2))).foldl
            (fun es q => ksSet es q.1 ⟨q.2, none⟩) ks.entries, true⟩,
          [.int (some 1)], false⟩ := by
  rw [runMsetnx, msetnxScan_pairs]
  cases ha : ps.any (fun p => ksHas ks (jsString p.1)) <;> simp [ha]

/-- every terminating path of the `runSet` option loop either stores the
entry (dirty set, OK reply) or is the NX abort (null reply, nothing
touched) -/
theorem runSetLoop_cases (ks : KS) (now : Int) (key : List Nat) (v : RItem) :
    ∀ (n : Nat) (args : List RItem), args.length ≤ n → ∀ (e : Option Int),
    (∃ e', runSetLoop ks now key v e args
        = ⟨⟨ksSet ks.entries key ⟨v, e'⟩, true⟩, [.str (bs "OK")], false⟩)
    ∨ runSetLoop ks now key v e args = ⟨ks, [.nullv], false⟩ := by
  intro n
  induction n with
  | zero =>
    intro args hn e
    match args, hn with
    | [], _ => exact Or.inl ⟨e, rfl⟩
  | succ m ih =>
    intro args hn e
    match args with
    | [] => exact Or.inl ⟨e, rfl⟩
    | a :: args' =>
      unfold runSetLoop
      by_cases h1 : toUpperBytes (summaryBytes a) = bs "EX"
      · rw [if_pos h1]
        match args' with
        | [] => exact ih [] (by simp) none
        | n' :: args'' =>
          exact ih args'' (by simp at hn ⊢; omega) _
      · rw [if_neg h1]
        by_cases h2 : toUpperBytes (summaryBytes a) = bs "PX"
        · rw [if_pos h2]
          match args' with
          | [] => exact ih [] (by simp) none
          | n' :: args'' =>
            exact ih args'' (by simp at hn ⊢; omega) _
        · rw [if_neg h2]
          by_cases h3 : toUpperBytes (summaryBytes a) = bs "NX"
          · rw [if_pos h3]
            by_cases h4 : ksHas ks key
            · rw [if_pos h4]
              exact Or.inr rfl
            · rw [if_neg h4]
              exact ih args' (by simp at hn; omega) e
          · rw [if_neg h3]
            exact ih args' (by simp at hn; omega) e

/-- C4 counterexample: FLUSHALL and FLUSHDB clear the keyspace and reply
OK but do NOT mark it dirty — on a clean keyspace holding one key the
dirty flag is still false afterwards, refuting "clear entire keyspace,
mark dirty, OK" and "any mutation sets it". -/
theorem c4_counterexample :
    runFlushall ⟨[(bs "k", ⟨.buf (bs "v"), none⟩)], false⟩
      = ⟨⟨[], false⟩, [.str (bs "OK")], false⟩
    ∧ runFlushdb ⟨[(bs "k", ⟨.buf (bs "v"), none⟩)], false⟩
      = ⟨⟨[], false⟩, [.str (bs "OK")], false⟩ :=
  ⟨rfl, rfl⟩

/-- C4 (amended): every modelled mutating command except FLUSHALL/FLUSHDB
sets the dirty flag — SET on success, MSET always, MSETNX on success, DEL
always, EXPIRE/PEXPIRE/EXPIREAT on success; FLUSHALL and FLUSHDB clear the
whole keyspace and reply OK but leave the dirty flag unchanged; the dirty
flag is cleared exactly when a snapshot write begins (`save` on a dirty
keyspace), and a save on a clean keyspace writes nothing. -/
theorem c4_dirty_flag_discipline :
    (∀ (ks : KS) (now : Int) (key v : RItem) (args : List RItem),
      (runSet ks now key v args).replies = [.str (bs "OK")] →
      (runSet ks now key v args).ks.changed = true)
    ∧ (∀ (ks : KS) (args : List RItem), (runMset ks args).ks.changed = true)
    ∧ (∀ (ks : KS) (args : List RItem),
      (runMsetnx ks args).replies = [.int (some 1)] → (runMsetnx ks args).ks.changed = true)
    ∧ (∀ (ks : KS) (args : List RItem), (runDel ks args).ks.changed = true)
    ∧ (∀ (ks : KS) (k st : RItem),
      (runExpireat ks k st).replies = [.int (some 1)] → (runExpireat ks k st).ks.changed = true)
    ∧ (∀ (ks : KS), (runFlushall ks).ks.entries = [] ∧ (runFlushall ks).ks.changed = ks.changed
        ∧ (runFlushall ks).replies = [.str (bs "OK")])
    ∧ (∀ (ks : KS) (now : Int), ks.changed = true → (serverSave ks now).1.changed = false)
    ∧ (∀ (ks : KS) (now : Int), ks.changed = false → serverSave ks now = (ks, [])) := by
  refine ⟨?_, ?_, ?_, ?_, ?_, ?_, ?_, ?_⟩
  · intro ks now key v args hok
    rcases runSetLoop_cases ks now (jsString key) v args.length args (le_refl _) none with
      ⟨e', he⟩ | he
    · rw [runSet, he]
    · rw [runSet] at hok
      rw [he] at hok
      simp at hok
  · intro ks args; rfl
  · intro ks args h1
    rw [runMsetnx] at h1 ⊢
    cases hscan : msetnxScan ks args with
    | none => rw [hscan] at h1; simp at h1
    | some pairs => rfl
  · intro ks args; rfl
  · intro ks k st h1
    rw [runExpireat] at h1 ⊢
    cases hget : ksGet ks (jsString k) with
    | none =>
      rw [hget] at h1
      simp at h1
    | some en => rfl
  · intro ks; exact ⟨rfl, rfl, rfl⟩
  · intro ks now h
    rw [serverSave, if_pos h]
  · intro ks now h
    rw [serverSave, if_neg (by rw [h]; simp)]

/-- C4 witness: concrete instances for each hypothesis-guarded conjunct -/
theorem c4_dirty_flag_witness :
    (runSet initKS 0 (.buf (bs "k")) (.buf (bs "v")) []).ks.changed = true
    ∧ (runMsetnx initKS [.buf (bs "a"), .buf (bs "1")]).ks.changed = true
    ∧ (runExpireat ⟨[(bs "k", ⟨.buf (bs "v"), none⟩)], false⟩ (.buf (bs "k"))
        (.buf (bs "5"))).ks.changed = true
    ∧ (serverSave ⟨[], true⟩ 0).1.changed = false
    ∧ serverSave ⟨[], false⟩ 0 = (⟨[], false⟩, []) :=
  ⟨c4_dirty_flag_discipline.1 initKS 0 (.buf (bs "k")) (.buf (bs "v")) [] rfl,
   c4_dirty_flag_discipline.2.2.1 initKS [.buf (bs "a"), .buf (bs "1")] rfl,
   c4_dirty_flag_discipline.2.2.2.2.1 ⟨[(bs "k", ⟨.buf (bs "v"), none⟩)], false⟩
     (.buf (bs "k")) (.buf (bs "5")) rfl,
   c4_dirty_flag_discipline.2.2.2.2.2.2.1 ⟨[], true⟩ 0 rfl,
   c4_dirty_flag_discipline.2.2.2.2.2.2.2 ⟨[], false⟩ 0 rfl⟩

/-! ## Save / load round trip: decoding one encoded scalar -/

theorem intDec_not_cr (v : Int) : (13 : Nat) ∉ intDec v := by
  intro hmem
  rw [intDec] at hmem
  split at hmem
  · simp only [List.mem_cons] at hmem
    rcases hmem with h | h
    · omega
    · exact natDec_not_cr _ h
  · exact natDec_not_cr _ hmem

theorem jsParseInt_intDec (v : Int) : jsParseInt (intDec v) = some v := by
  rw [intDec]
  split
  · next hv =>
    have hne := natDec_ne_nil (-v).toNat
    match hnd : natDec (-v).toNat, hne with
    | d :: ds, _ =>
      have hb : ∀ x ∈ natDec (-v).toNat, 48 ≤ x ∧ x ≤ 57 := natDec_bounds _
      rw [hnd] at hb
      obtain ⟨hd1, hd2⟩ := hb d (by simp)
      simp only [jsParseInt, List.dropWhile_cons]
      rw [if_neg (by decide)]
      dsimp only
      rw [if_pos rfl]
      rw [show leadDigits (d :: ds) = d :: ds from leadDigits_eq_self hb]
      rw [if_neg (by simp)]
      have : decValue (d :: ds) = (-v).toNat := by rw [← hnd, decValue_natDec]
      rw [this]
      have : (((-v).toNat : Nat) : Int) = -v := Int.toNat_of_nonneg (by omega)
      rw [this]
      simp
  · next hv =>
    rw [jsParseInt_natDec]
    have : ((v.toNat : Nat) : Int) = v := Int.toNat_of_nonneg (by omega)
    rw [this]

theorem respondBytes_ne_nil (s : RItem) : respondBytes s ≠ [] := by
  cases s with
  | nullv => simp [respondBytes]
  | undef => simp [respondBytes]
  | int o => cases o <;> simp [respondBytes]
  | str l => simp [respondBytes]
  | buf b => simp [respondBytes]
  | arr a => simp [respondBytes]

theorem respondList_ne_nil {els : List RItem} (h : els ≠ []) : respondList els ≠ [] := by
  match els, h with
  | s :: rest, _ =>
    rw [respondList]
    intro hc
    rcases List.append_eq_nil.mp hc with ⟨h1, -⟩
    exact respondBytes_ne_nil s h1

/-- the scalar reply shapes DUMPALL emits: strings without CR (command
words and keys), Buffers (values) and plain numbers (PX milliseconds) -/
inductive ScalarWF : RItem → Prop
  | str (s : List Nat) (h : (13 : Nat) ∉ s) : ScalarWF (.str s)
  | buf (b : List Nat) : ScalarWF (.buf b)
  | int (v : Int) : ScalarWF (.int (some v))

/-- `this.line` right after one encoded scalar is decoded -/
def postLine : RItem → List Nat
  | .str s => s
  | .int (some v) => intDec v
  | .buf b => b
  | _ => []

/-- `this.length` right after one encoded scalar is decoded -/
def postLen : RItem → Option Int
  | .buf b => some ((b.length : Int))
  | _ => none

/-- decoding one encoded scalar from idle mode completes it exactly, with
no overshoot, pushing it through the array stack -/
theorem scalarParse (s : RItem) (h : ScalarWF s) (li : Option (List Nat))
    (le : Option Int) (sk : List PArr) :
    parseRun ⟨.idle, li, le, sk⟩ (respondBytes s)
      = ⟨(pushItem sk s).2.toList,
         .ok ⟨.idle, some (postLine s), postLen s, (pushItem sk s).1⟩ 0⟩ := by
  cases h with
  | str l hl =>
    rw [show respondBytes (.str l) = 43 :: (l ++ 13 :: 10 :: []) from rfl]
    rw [parseRun_eq, step_of_ne_nil (by simp)]
    simp only [idleStep_cons, if_neg (show ¬ (43 : Nat) = 13 by omega),
      if_pos (show validTag 43 = true from rfl)]
    rw [parseRun_eq, step_of_ne_nil (by simp)]
    simp only [lineStep, splitAtCR_of_not_mem hl, lineAcc, Option.getD_none, List.nil_append,
      if_neg (show ¬ (43 : Nat) = 36 by omega), if_neg (show ¬ (43 : Nat) = 42 by omega),
      if_neg (show ¬ (43 : Nat) = 58 by omega)]
    rfl
  | int v =>
    rw [show respondBytes (.int (some v)) = 58 :: (intDec v ++ 13 :: 10 :: []) from rfl]
    rw [parseRun_eq, step_of_ne_nil (by simp)]
    simp only [idleStep_cons, if_neg (show ¬ (58 : Nat) = 13 by omega),
      if_pos (show validTag 58 = true from rfl)]
    rw [parseRun_eq, step_of_ne_nil (by simp)]
    simp only [lineStep, splitAtCR_of_not_mem (intDec_not_cr v), lineAcc, Option.getD_none,
      List.nil_append, if_neg (show ¬ (58 : Nat) = 36 by omega),
      if_neg (show ¬ (58 : Nat) = 42 by omega), if_pos (show (58 : Nat) = 58 from rfl),
      jsParseInt_intDec]
    rfl
  | buf b =>
    rw [show respondBytes (.buf b) = 36 :: (natDec b.length ++ 13 :: 10 :: (b ++ 13 :: 10 :: []))
      from by simp [respondBytes]]
    rw [parseRun_eq, step_of_ne_nil (by simp)]
    simp only [idleStep_cons, if_neg (show ¬ (36 : Nat) = 13 by omega),
      if_pos (show validTag 36 = true from rfl)]
    rw [parseRun_eq, step_of_ne_nil (by simp)]
    simp only [lineStep, splitAtCR_of_not_mem (natDec_not_cr b.length), lineAcc,
      Option.getD_none, List.nil_append, if_pos (show (36 : Nat) = 36 from rfl),
      jsParseInt_natDec, if_true, eq_self_iff_true,
      if_neg (show ¬ (some ((b.length : Int)) = some (-1)) by simp)]
    have hex : ∃ y ys, b ++ 13 :: 10 :: ([] : List Nat) = y :: ys := by
      cases b
      · exact ⟨_, _, rfl⟩
      · exact ⟨_, _, rfl⟩
    obtain ⟨y, ys, hy⟩ := hex
    rw [hy]
    dsimp only
    rw [← hy]
    rw [parseRun_eq, step_of_ne_nil (by simp)]
    simp only [bodyStep, lineAcc, Option.getD_none]
    simp only [if_neg (by simp : ¬ ((b.length : Int)) < (((([] : List Nat)).length : Nat) : Int))]
    have htn : (((b.length : Int)) - ((((([] : List Nat)).length : Nat) : Int))).toNat
        = b.length := by simp
    rw [htn]
    have hlen2 : (b ++ 13 :: 10 :: ([] : List Nat)).length = b.length + 2 := by
      simp [List.length_append]
    rw [if_pos (show b.length ≤ (b ++ 13 :: 10 :: ([] : List Nat)).length by
        rw [hlen2]; omega),
      if_neg (show ¬ b.length + 2 < (b ++ 13 :: 10 :: ([] : List Nat)).length by
        rw [hlen2]; omega)]
    rw [show (b ++ 13 :: 10 :: ([] : List Nat)).take b.length = b from by
      rw [List.take_append_eq_append_take, Nat.sub_self, List.take_zero, List.append_nil,
        List.take_of_length_le (le_refl _)]]
    rw [hlen2]
    simp [postLine, postLen]

/-- decoding the encoded elements of an in-progress array of expected
total count `n` with `done` elements already collected completes the array
exactly -/
theorem elemsParse : ∀ (els : List RItem) (hne : els ≠ []),
    (∀ s ∈ els, ScalarWF s) →
    ∀ (done : List RItem) (n : Int), n = done.length + els.length →
    ∀ (li : Option (List Nat)) (le : Option Int) (sk : List PArr),
    parseRun ⟨.idle, li, le, ⟨some n, done⟩ :: sk⟩ (respondList els)
      = ⟨(pushItem sk (.arr (done ++ els))).2.toList,
         .ok ⟨.idle, some (postLine (els.getLast hne)), postLen (els.getLast hne),
           (pushItem sk (.arr (done ++ els))).1⟩ 0⟩ := by
  intro els
  induction els with
  | nil => intro hne; exact absurd rfl hne
  | cons s rest ih =>
    intro hne hwf done n hn li le sk
    cases rest with
    | nil =>
      rw [show respondList [s] = respondBytes s from by
        rw [respondList, respondList, List.append_nil]]
      rw [scalarParse s (hwf s (by simp)) li le (⟨some n, done⟩ :: sk)]
      have hcond : (some n : Option Int) = some (((done ++ [s]).length : Nat) : Int) := by
        rw [hn]
        simp [List.length_append]
      rw [show pushItem (⟨some n, done⟩ :: sk) s = pushItem sk (.arr (done ++ [s])) from by
        simp only [pushItem]
        rw [if_pos hcond]]
      rfl
    | cons r rs =>
      have hwfs := hwf s (by simp)
      have h1 := scalarParse s hwfs li le (⟨some n, done⟩ :: sk)
      have hnc : ¬ (some n : Option Int) = some (((done ++ [s]).length : Nat) : Int) := by
        intro hc
        rw [hn] at hc
        simp only [Option.some_inj, List.length_append, List.length_cons,
          List.length_singleton, List.length_nil] at hc
        push_cast at hc
        omega
      rw [show pushItem (⟨some n, done⟩ :: sk) s
          = ((⟨some n, done ++ [s]⟩ : PArr) :: sk, (none : Option RItem)) from by
        simp only [pushItem]
        rw [if_neg hnc]] at h1
      simp only [Option.toList] at h1
      have h2 := parseRun_append (respondBytes s).length (respondBytes s) (le_refl _)
        (respondList (r :: rs)) _ _ _ h1
      rw [show respondList (s :: r :: rs) = respondBytes s ++ respondList (r :: rs) from rfl, h2]
      have h3 := ih (by simp) (fun x hx => hwf x (by simp [hx])) (done ++ [s]) n
        (by rw [hn]; simp [List.length_append]; ring)
        (some (postLine s)) (postLen s) sk
      rw [h3]
      simp only [List.nil_append, List.append_assoc, List.singleton_append]
      rw [show (s :: r :: rs).getLast hne = (r :: rs).getLast (by simp) from
        List.getLast_cons (by simp)]

/-- decoding one encoded nonempty array of scalars from idle mode
dispatches it exactly (or completes an enclosing array), with no
overshoot -/
theorem arrayFrame (els : List RItem) (hne : els ≠ []) (hwf : ∀ s ∈ els, ScalarWF s)
    (li : Option (List Nat)) (le : Option Int) (sk : List PArr) :
    parseRun ⟨.idle, li, le, sk⟩ (respondBytes (.arr els))
      = ⟨(pushItem sk (.arr els)).2.toList,
         .ok ⟨.idle, some (postLine (els.getLast hne)), postLen (els.getLast hne),
           (pushItem sk (.arr els)).1⟩ 0⟩ := by
  obtain ⟨y, ys, hys⟩ : ∃ y ys, respondList els = y :: ys := by
    match h : respondList els, respondList_ne_nil hne with
    | z :: zs, _ => exact ⟨z, zs, rfl⟩
  rw [show respondBytes (.arr els)
      = 42 :: (natDec els.length ++ 13 :: 10 :: respondList els) from by
    simp [respondBytes]]
  rw [parseRun_eq, step_of_ne_nil (by simp)]
  simp only [idleStep_cons, if_neg (show ¬ (42 : Nat) = 13 by omega),
    if_pos (show validTag 42 = true from rfl)]
  rw [parseRun_eq, step_of_ne_nil (by simp)]
  simp only [lineStep, splitAtCR_of_not_mem (natDec_not_cr els.length), lineAcc,
    Option.getD_none, List.nil_append, if_neg (show ¬ (42 : Nat) = 36 by omega),
    if_pos (show (42 : Nat) = 42 from rfl), jsParseInt_natDec, if_true, eq_self_iff_true]
  rw [hys]
  dsimp only
  rw [← hys]
  rw [elemsParse els hne hwf [] ((els.length : Int)) (by simp) _ _ sk]
  simp

/-- a well-formed command frame: a nonempty array of wire-safe scalars -/
def CmdWF (c : RItem) : Prop := ∃ els, c = .arr els ∧ els ≠ [] ∧ ∀ s ∈ els, ScalarWF s

/-- an encoded transcript of well-formed command frames decodes to exactly
those frames, in order, ending idle with an empty stack and no
overshoot -/
theorem transcriptParse : ∀ (cmds : List RItem), (∀ c ∈ cmds, CmdWF c) →
    ∀ (li : Option (List Nat)) (le : Option Int),
    ∃ li2 le2, parseRun ⟨.idle, li, le, []⟩ (respondList cmds)
      = ⟨cmds, .ok ⟨.idle, li2, le2, []⟩ 0⟩ := by
  intro cmds
  induction cmds with
  | nil => exact fun _ li le => ⟨li, le, parseRun_nil _⟩
  | cons c cs ih =>
    intro hwf li le
    obtain ⟨els, hc, hne, hels⟩ := hwf c (by simp)
    have h1 := arrayFrame els hne hels li le []
    rw [show pushItem [] (.arr els) = ([], some (.arr els)) from rfl] at h1
    simp only [Option.toList] at h1
    rw [← hc] at h1
    obtain ⟨li2, le2, h3⟩ := ih (fun x hx => hwf x (by simp [hx]))
      (some (postLine (els.getLast hne))) (postLen (els.getLast hne))
    have h2 := parseRun_append (respondBytes c).length (respondBytes c) (le_refl _)
      (respondList cs) _ _ _ h1
    rw [h3] at h2
    simp only [List.singleton_append] at h2
    exact ⟨li2, le2, by
      rw [show respondList (c :: cs) = respondBytes c ++ respondList cs from rfl]
      exact h2⟩

/-! ## Save / load round trip: replaying the transcript -/

/-- what one entry becomes after a save/load round trip: the value is kept
verbatim, the expiry survives only if it was truthy and still in the
future at dump time (otherwise the key reloads with no expiry at all) -/
def reloadEntry (now : Int) (p : List Nat × Entry) : List Nat × Entry :=
  (p.1, ⟨p.2.v, if truthyE p.2.e ∧ now < p.2.e.getD 0 then p.2.e else none⟩)

theorem ksSet_fresh : ∀ (es : List (List Nat × Entry)) (k : List Nat) (en : Entry),
    (∀ q ∈ es, q.1 ≠ k) → ksSet es k en = es ++ [(k, en)] := by
  intro es
  induction es with
  | nil => intro k en _; rfl
  | cons p rest ih =>
    intro k en h
    rw [ksSet, if_neg (h p (by simp)), ih k en (fun q hq => h q (by simp [hq]))]
    rfl

/-- replaying one `SET` line of the transcript stores the reloaded entry -/
theorem runTop_dumpCmd (acc : KS) (now : Int) (p : List Nat × Entry) :
    runTop acc now (dumpCmd now p)
      = ⟨⟨ksSet acc.entries p.1 ⟨p.2.v, (reloadEntry now p).2.e⟩, true⟩,
         [.str (bs "OK")], false⟩ := by
  rw [show dumpCmd now p = .arr (.str (bs "SET") :: .str p.1 :: p.2.v ::
      (if truthyE p.2.e ∧ now < p.2.e.getD 0 then
        [.str (bs "PX"), .int (some (p.2.e.getD 0 - now))] else [])) from by
    rw [dumpCmd]
    simp only [List.cons_append, List.nil_append]]
  dsimp only [reloadEntry]
  by_cases hcond : truthyE p.2.e ∧ now < p.2.e.getD 0
  · rw [if_pos hcond, if_pos hcond]
    rw [show runTop acc now (.arr (.str (bs "SET") :: .str p.1 :: p.2.v ::
        [.str (bs "PX"), .int (some (p.2.e.getD 0 - now))]))
        = ⟨⟨ksSet acc.entries p.1 ⟨p.2.v, some (now + (p.2.e.getD 0 - now))⟩, true⟩,
           [.str (bs "OK")], false⟩ from rfl]
    obtain ⟨ht, hlt⟩ := hcond
    cases hpe : p.2.e with
    | none => rw [hpe] at ht; exact absurd ht (by simp [truthyE])
    | some x =>
      simp only [Option.getD_some]
      rw [show now + (x - now) = x from by ring]
  · rw [if_neg hcond, if_neg hcond]
    exact rfl

/-- replaying a whole transcript of `SET` lines with distinct keys fresh to
the accumulator appends the reloaded entries in order -/
theorem replayDump : ∀ (l : List (List Nat × Entry)) (acc : KS) (now : Int),
    (l.map Prod.fst).Nodup →
    (∀ p ∈ l, ∀ q ∈ acc.entries, q.1 ≠ p.1) →
    (runFrames now acc (l.map (dumpCmd now))).entries
      = acc.entries ++ l.map (reloadEntry now) := by
  intro l
  induction l with
  | nil => intro acc now _ _; simp [runFrames]
  | cons p l2 ih =>
    intro acc now hnd hfresh
    rw [List.map_cons, runFrames, runTop_dumpCmd]
    dsimp only
    rw [ksSet_fresh acc.entries p.1 _ (fun q hq => hfresh p (by simp) q hq)]
    have hih := ih ⟨acc.entries ++ [(p.1, ⟨p.2.v, (reloadEntry now p).2.e⟩)], true⟩ now
      (List.nodup_cons.mp hnd).2
      (by
        intro r hr q hq
        rcases List.mem_append.mp hq with hq1 | hq2
        · exact hfresh r (by simp [hr]) q hq1
        · have hq3 : q = (p.1, ⟨p.2.v, (reloadEntry now p).2.e⟩) := by
            simpa using hq2
          rw [hq3]
          intro hc
          exact (List.nodup_cons.mp hnd).1 (hc ▸ List.mem_map_of_mem Prod.fst hr))
    rw [if_neg (show ¬ (false = true) by decide)]
    rw [hih]
    have hre : ((p.1, ⟨p.2.v, (reloadEntry now p).2.e⟩) : List Nat × Entry)
        = reloadEntry now p := rfl
    rw [hre]
    simp [List.append_assoc]

/-- C1 counterexample to the original claim: a key whose expiry (5) had
already passed at dump time (now = 10) is NOT absent from the reloaded
keyspace — `dumpCmd` emits a plain `SET` without `PX` for it, so it is
resurrected with no expiry at all. -/
theorem c1_counterexample :
    (loadKS (serverSaveBytes ⟨[(bs "k", ⟨.buf (bs "a"), some 5⟩)], true⟩ 10) 10).entries
      = [(bs "k", ⟨.buf (bs "a"), none⟩)] := rfl

/-- C1 (amended): for every keyspace whose keys are CR-free and pairwise
distinct and whose values are Buffers, a save (the DUMPALL transcript as
encoded by `respond`) followed by a load into a fresh keyspace yields
exactly the original entries in order, each transformed by `reloadEntry`:
the value is kept verbatim, an expiry that was truthy and still in the
future at dump time is kept exactly, and every other key — including one
whose expiry had already passed at dump time — reloads WITH NO EXPIRY
rather than being excluded. -/
theorem c1_save_load_round_trip (ks : KS) (now : Int)
    (hkeys : ∀ p ∈ ks.entries, (13 : Nat) ∉ p.1)
    (hvals : ∀ p ∈ ks.entries, ∃ b, p.2.v = RItem.buf b)
    (hnodup : (ks.entries.map Prod.fst).Nodup) :
    (loadKS (serverSaveBytes ks now) now).entries
      = ks.entries.map (reloadEntry now) := by
  have hcw : ∀ c ∈ ((.arr [.str (bs "FLUSHDB")] :: ks.entries.map (dumpCmd now)) : List RItem),
      CmdWF c := by
    intro c hc
    rcases List.mem_cons.mp hc with hc1 | hc2
    · refine ⟨[.str (bs "FLUSHDB")], hc1, by simp, ?_⟩
      intro s hs
      simp only [List.mem_singleton] at hs
      subst hs
      exact ScalarWF.str _ (by decide)
    · obtain ⟨p, hp, hpc⟩ := List.mem_map.mp hc2
      refine ⟨.str (bs "SET") :: .str p.1 :: p.2.v ::
        (if truthyE p.2.e ∧ now < p.2.e.getD 0 then
          [.str (bs "PX"), .int (some (p.2.e.getD 0 - now))] else []), ?_, by simp, ?_⟩
      · rw [← hpc, dumpCmd]
        simp only [List.cons_append, List.nil_append]
      · intro s hs
        rcases List.mem_cons.mp hs with h1 | hs
        · subst h1; exact ScalarWF.str _ (by decide)
        rcases List.mem_cons.mp hs with h2 | hs
        · subst h2; exact ScalarWF.str _ (hkeys p hp)
        rcases List.mem_cons.mp hs with h3 | hs
        · obtain ⟨b, hb⟩ := hvals p hp
          subst h3
          rw [hb]
          exact ScalarWF.buf b
        · split at hs
          · rcases List.mem_cons.mp hs with h4 | hs
            · subst h4; exact ScalarWF.str _ (by decide)
            · simp only [List.mem_singleton] at hs
              subst hs
              exact ScalarWF.int _
          · simp at hs
  obtain ⟨li2, le2, hp⟩ := transcriptParse _ hcw none none
  rw [loadKS, serverSaveBytes, runDumpall]
  rw [show initPState = (⟨.idle, none, none, []⟩ : PState) from rfl]
  rw [hp]
  rw [runFrames]
  rw [show runTop initKS now (.arr [.str (bs "FLUSHDB")])
      = ⟨⟨[], false⟩, [.str (bs "OK")], false⟩ from rfl]
  rw [if_neg (show ¬ (false = true) by decide)]
  rw [replayDump ks.entries ⟨[], false⟩ now hnodup (by intro r hr q hq; simp at hq)]
  simp

/-- C1 witness: a concrete two-key keyspace (one live expiry, one without)
satisfies the hypotheses, and the round trip reproduces it via
`reloadEntry`. -/
theorem c1_save_load_witness :
    (loadKS (serverSaveBytes ⟨[(bs "k", ⟨.buf (bs "a"), some 50⟩),
        (bs "j", ⟨.buf (bs "b"), none⟩)], true⟩ 10) 10).entries
      = ([(bs "k", ⟨.buf (bs "a"), some 50⟩), (bs "j", ⟨.buf (bs "b"), none⟩)]
          : List (List Nat × Entry)).map (reloadEntry 10) :=
  c1_save_load_round_trip ⟨[(bs "k", ⟨.buf (bs "a"), some 50⟩),
      (bs "j", ⟨.buf (bs "b"), none⟩)], true⟩ 10
    (by decide)
    (by
      intro p hp
      rcases List.mem_cons.mp hp with h1 | hp
      · exact ⟨bs "a", by rw [h1]⟩
      · simp only [List.mem_singleton] at hp
        exact ⟨bs "b", by rw [hp]⟩)
    (by decide)

/-! ## KEYS glob matching (`pattern` and `runKeys`) -/

/-- the character class of `pattern`'s first replace: `[\\.(){}^$]` -/
def escClass (c : Nat) : Bool :=
  c = 92 || c = 46 || c = 40 || c = 41 || c = 123 || c = 125 || c = 94 || c = 36

/-- `.replace(/([\\.(){}^$])/g, '\\$1')`: escape each class char -/
def replace1 : List Nat → List Nat
  | [] => []
  | c :: rest => if escClass c then 92 :: c :: replace1 rest else c :: replace1 rest

/-- `.replace(/([*?])/g, '.$1')`: turn `*` into `.*` and `?` into `.?` -/
def replace2 : List Nat → List Nat
  | [] => []
  | c :: rest => if c = 42 || c = 63 then 46 :: c :: replace2 rest else c :: replace2 rest

/-- `.replace(/\\\\.([*?])/g, '\\$1')`: two literal backslashes, any char
(regex `.`, so not a line terminator), then a quantifier, collapse to the
escaped quantifier; global replace scans left to right, advancing one
char when no match starts at the current position -/
def replace3 : List Nat → List Nat
  | [] => []
  | [c] => [c]
  | [c, d] => [c, d]
  | [c, d, e] => [c, d, e]
  | c :: d :: x :: q :: rest =>
    if c = 92 ∧ d = 92 ∧ (q = 42 ∨ q = 63) ∧ x ≠ 10 ∧ x ≠ 13 then
      92 :: q :: replace3 rest
    else c :: replace3 (d :: x :: q :: rest)

/-- `.replace(/\\\\([[\]])/g, '\\$1')`: two literal backslashes then a
bracket, collapse to the escaped bracket -/
def replace4 : List Nat → List Nat
  | [] => []
  | [c] => [c]
  | [c, d] => [c, d]
  | c :: d :: b :: rest =>
    if c = 92 ∧ d = 92 ∧ (b = 91 ∨ b = 93) then 92 :: b :: replace4 rest
    else c :: replace4 (d :: b :: rest)

/-- the `pattern` function: the regex source built between the added `^`
and `$` anchors -/
def pattern (p : List Nat) : List Nat := replace4 (replace3 (replace2 (replace1 p)))

/-- a regex atom of the sources `pattern` can emit: `.` or a literal -/
inductive RAtom where
  | any
  | lit (c : Nat)

/-- a quantifier on an atom: none, `*` or `?` -/
inductive RQuant where
  | one
  | star
  | opt

/-- atoms the model does not cover (unescaped metacharacters) map to
`none` -/
def charAtom (c : Nat) : Option RAtom :=
  if c = 46 then some RAtom.any
  else if c = 42 || c = 63 || c = 43 || c = 40 || c = 41 || c = 91 || c = 93 ||
      c = 123 || c = 125 || c = 94 || c = 36 || c = 124 then none
  else some (RAtom.lit c)

/-- parse a regex source into a sequence of quantified atoms; `none` for
any construct outside this fragment (groups, classes, alternation, `+`, a
dangling backslash) -/
def parseRegex : List Nat → Option (List (RAtom × RQuant))
  | [] => some []
  | [92] => none
  | 92 :: c :: 42 :: rest => (parseRegex rest).map (fun l => (RAtom.lit c, RQuant.star) :: l)
  | 92 :: c :: 63 :: rest => (parseRegex rest).map (fun l => (RAtom.lit c, RQuant.opt) :: l)
  | 92 :: _ :: 43 :: _ => none
  | 92 :: c :: rest => (parseRegex rest).map (fun l => (RAtom.lit c, RQuant.one) :: l)
  | c :: 42 :: rest =>
    match charAtom c with
    | none => none
    | some a => (parseRegex rest).map (fun l => (a, RQuant.star) :: l)
  | c :: 63 :: rest =>
    match charAtom c with
    | none => none
    | some a => (parseRegex rest).map (fun l => (a, RQuant.opt) :: l)
  | _ :: 43 :: _ => none
  | c :: rest =>
    match charAtom c with
    | none => none
    | some a => (parseRegex rest).map (fun l => (a, RQuant.one) :: l)

/-- does one atom accept one char (`.` excludes line terminators, the
regex has no `s` flag) -/
def atomTest : RAtom → Nat → Bool
  | RAtom.any, c => !(c = 10 || c = 13)
  | RAtom.lit e, c => decide (c = e)

/-- full-string match of a quantified-atom sequence (boolean backtracking
semantics of `RegExp.test` with the `^`/`$` anchors); fuel is a
structural-recursion device, `pieces + chars + 1` always suffices -/
def reMatchGo : Nat → List (RAtom × RQuant) → List Nat → Bool
  | 0, _, _ => false
  | _ + 1, [], [] => true
  | _ + 1, [], _ :: _ => false
  | _ + 1, (_, RQuant.one) :: _, [] => false
  | fuel + 1, (a, RQuant.one) :: ps, c :: s => atomTest a c && reMatchGo fuel ps s
  | fuel + 1, (a, RQuant.opt) :: ps, s =>
    reMatchGo fuel ps s ||
      (match s with
       | [] => false
       | c :: s2 => atomTest a c && reMatchGo fuel ps s2)
  | fuel + 1, (a, RQuant.star) :: ps, s =>
    reMatchGo fuel ps s ||
      (match s with
       | [] => false
       | c :: s2 => atomTest a c && reMatchGo fuel ((a, RQuant.star) :: ps) s2)

/-- anchored match of a parsed regex against a string -/
def reMatch (ps : List (RAtom × RQuant)) (s : List Nat) : Bool :=
  reMatchGo (ps.length + s.length + 1) ps s

/-- `runKeys`: filter the snapshot of keys by `match.test(key)`; the
`RegExp` built by `pattern` is modelled by `parseRegex`/`reMatch`, with
`none` when the produced source falls outside the modelled fragment -/
def runKeys (ks : KS) (p : List Nat) : Option (List (List Nat)) :=
  (parseRegex (pattern p)).map
    (fun ps => (ks.entries.map Prod.fst).filter (fun k => reMatch ps k))

/-- glob matching as the CLAIM words it: `*` any run, `?` EXACTLY one
char, every other char literal -/
def claimGlobGo : Nat → List Nat → List Nat → Bool
  | 0, _, _ => false
  | fuel + 1, p, k =>
    match p with
    | [] => decide (k = [])
    | c :: ps =>
      if c = 42 then
        claimGlobGo fuel ps k ||
          (match k with
           | [] => false
           | _ :: s2 => claimGlobGo fuel (c :: ps) s2)
      else if c = 63 then
        match k with
        | [] => false
        | _ :: s2 => claimGlobGo fuel ps s2
      else
        match k with
        | [] => false
        | d :: s2 => decide (d = c) && claimGlobGo fuel ps s2

/-- glob matching as the claim words it, at standard fuel -/
def claimGlobMatch (p k : List Nat) : Bool := claimGlobGo (p.length + k.length + 1) p k

/-- glob matching as the CODE implements it: `?` matches ZERO OR ONE char
(`pattern` rewrites `?` to `.?`) -/
def amendedGlobGo : Nat → List Nat → List Nat → Bool
  | 0, _, _ => false
  | fuel + 1, p, k =>
    match p with
    | [] => decide (k = [])
    | c :: ps =>
      if c = 42 then
        amendedGlobGo fuel ps k ||
          (match k with
           | [] => false
           | _ :: s2 => amendedGlobGo fuel (c :: ps) s2)
      else if c = 63 then
        amendedGlobGo fuel ps k ||
          (match k with
           | [] => false
           | _ :: s2 => amendedGlobGo fuel ps s2)
      else
        match k with
        | [] => false
        | d :: s2 => decide (d = c) && amendedGlobGo fuel ps s2

/-- the code's glob semantics at standard fuel -/
def amendedGlobMatch (p k : List Nat) : Bool := amendedGlobGo (p.length + k.length + 1) p k

/-- the quantified atom `pattern` produces for one input char -/
def pieceOf (c : Nat) : RAtom × RQuant :=
  if c = 42 then (RAtom.any, RQuant.star)
  else if c = 63 then (RAtom.any, RQuant.opt)
  else (RAtom.lit c, RQuant.one)

/-- the quantified atoms `pattern` produces for a whole input -/
def pieces (p : List Nat) : List (RAtom × RQuant) := p.map pieceOf

/-- the regex source chars `pattern` produces for one input char -/
def tok (c : Nat) : List Nat :=
  if escClass c then [92, c]
  else if c = 42 || c = 63 then [46, c]
  else [c]

/-- the regex source `pattern` produces, token by token -/
def encode : List Nat → List Nat
  | [] => []
  | c :: r => tok c ++ encode r

/-- no two adjacent backslashes (so the third and fourth replaces cannot
fire) -/
def noDoubleBS : List Nat → Bool
  | [] => true
  | [_] => true
  | a :: b :: rest => !(a = 92 && b = 92) && noDoubleBS (b :: rest)

theorem encode_eq (p : List Nat) : replace2 (replace1 p) = encode p := by
  induction p with
  | nil => rfl
  | cons c r ih =>
    rw [replace1, encode, tok]
    by_cases hesc : escClass c = true
    · rw [if_pos hesc, if_pos hesc]
      have hc42 : ¬ (c = 42 || c = 63) = true := by
        intro hc
        simp only [Bool.or_eq_true, decide_eq_true_eq] at hc
        rcases hc with hc | hc <;> subst hc <;> simp [escClass] at hesc
      rw [replace2, if_neg (by decide), replace2, if_neg hc42, ih]
      rfl
    · rw [if_neg hesc, if_neg hesc]
      by_cases hq : (c = 42 || c = 63) = true
      · rw [replace2, if_pos hq, if_pos hq, ih]
        rfl
      · rw [replace2, if_neg hq, if_neg hq, ih]
        rfl

theorem noDoubleBS_tail : ∀ {a : Nat} {l : List Nat},
    noDoubleBS (a :: l) = true → noDoubleBS l = true := by
  intro a l h
  cases l with
  | nil => rfl
  | cons b rest =>
    rw [noDoubleBS, Bool.and_eq_true] at h
    exact h.2

theorem noDoubleBS_cons {c : Nat} {l : List Nat} (hc : c ≠ 92)
    (hl : noDoubleBS l = true) : noDoubleBS (c :: l) = true := by
  cases l with
  | nil => rfl
  | cons b rest =>
    rw [noDoubleBS, Bool.and_eq_true]
    refine ⟨?_, hl⟩
    simp only [Bool.not_eq_true', Bool.and_eq_false_iff]
    left
    simpa using hc

theorem noDoubleBS_encode (p : List Nat) (hp : ∀ c ∈ p, c ≠ 92) :
    noDoubleBS (encode p) = true := by
  induction p with
  | nil => rfl
  | cons c r ih =>
    have hih := ih (fun d hd => hp d (by simp [hd]))
    have hc := hp c (by simp)
    rw [encode, tok]
    by_cases hesc : escClass c = true
    · rw [if_pos hesc]
      show noDoubleBS (92 :: c :: encode r) = true
      cases henc : encode r with
      | nil =>
        rw [noDoubleBS]
        simp [hc, noDoubleBS]
      | cons y ys =>
        rw [noDoubleBS, Bool.and_eq_true]
        refine ⟨by simp [hc], ?_⟩
        rw [← henc]
        exact noDoubleBS_cons hc hih
    · rw [if_neg hesc]
      by_cases hq : (c = 42 || c = 63) = true
      · rw [if_pos hq]
        show noDoubleBS (46 :: c :: encode r) = true
        cases henc : encode r with
        | nil => rw [noDoubleBS]; simp [hc, noDoubleBS]
        | cons y ys =>
          rw [noDoubleBS, Bool.and_eq_true]
          refine ⟨by simp, ?_⟩
          rw [← henc]
          exact noDoubleBS_cons hc hih
      · rw [if_neg hq]
        show noDoubleBS (c :: encode r) = true
        exact noDoubleBS_cons hc hih

theorem replace3_id : ∀ (n : Nat) (l : List Nat), l.length ≤ n →
    noDoubleBS l = true → replace3 l = l := by
  intro n
  induction n with
  | zero =>
    intro l hn _
    match l, hn with
    | [], _ => rfl
  | succ m ih =>
    intro l hn hbs
    match l with
    | [] => rfl
    | [c] => rfl
    | [c, d] => rfl
    | [c, d, e] => rfl
    | c :: d :: x :: q :: rest =>
      rw [replace3, if_neg ?hno]
      case hno =>
        rintro ⟨hc, hd, -⟩
        rw [noDoubleBS, Bool.and_eq_true] at hbs
        rw [hc, hd] at hbs
        simp at hbs
      rw [ih (d :: x :: q :: rest) (by simp at hn ⊢; omega) (noDoubleBS_tail hbs)]

theorem replace4_id : ∀ (n : Nat) (l : List Nat), l.length ≤ n →
    noDoubleBS l = true → replace4 l = l := by
  intro n
  induction n with
  | zero =>
    intro l hn _
    match l, hn with
    | [], _ => rfl
  | succ m ih =>
    intro l hn hbs
    match l with
    | [] => rfl
    | [c] => rfl
    | [c, d] => rfl
    | c :: d :: b :: rest =>
      rw [replace4, if_neg ?hno]
      case hno =>
        rintro ⟨hc, hd, -⟩
        rw [noDoubleBS, Bool.and_eq_true] at hbs
        rw [hc, hd] at hbs
        simp at hbs
      rw [ih (d :: b :: rest) (by simp at hn ⊢; omega) (noDoubleBS_tail hbs)]

/-- for a backslash-free input the third and fourth replaces never fire:
the regex source is exactly the token expansion -/
theorem pattern_encode (p : List Nat) (hp : ∀ c ∈ p, c ≠ 92) :
    pattern p = encode p := by
  rw [pattern, encode_eq]
  have hbs := noDoubleBS_encode p hp
  rw [replace3_id (encode p).length _ (le_refl _) hbs,
    replace4_id (encode p).length _ (le_refl _) hbs]

set_option maxHeartbeats 1000000 in
theorem parseRegex_escaped_cons (c h : Nat) (t : List Nat) (h42 : h ≠ 42)
    (h63 : h ≠ 63) (h43 : h ≠ 43) :
    parseRegex (92 :: c :: h :: t)
      = (parseRegex (h :: t)).map (fun l => (RAtom.lit c, RQuant.one) :: l) := by
  conv_lhs => unfold parseRegex
  split
  · rename_i heq
    exact absurd heq (by simp)
  · rename_i heq
    exact absurd heq (by simp)
  · rename_i s cc rr heq
    injection heq with e1 r1
    injection r1 with e2 r2
    injection r2 with e3 r3
    exact absurd e3 h42
  · rename_i s cc rr heq
    injection heq with e1 r1
    injection r1 with e2 r2
    injection r2 with e3 r3
    exact absurd e3 h63
  · rename_i s cc rr heq
    injection heq with e1 r1
    injection r1 with e2 r2
    injection r2 with e3 r3
    exact absurd e3 h43
  · rename_i s cc rr a2 a1 a0 heq
    injection heq with e1 r1
    injection r1 with e2 r2
    subst e2
    subst r2
    rfl
  · rename_i s cc rr a3 a2 a1 a0 heq
    injection heq with e1 r1
    exact absurd e1.symm a0
  · rename_i s cc rr a3 a2 a1 a0 heq
    injection heq with e1 r1
    exact absurd e1.symm a0
  · rename_i s hd tl a3 a2 a1 a0 heq
    injection heq with e1 r1
    exact absurd e1.symm a0
  · rename_i s cc rr a7 a6 a5 a4 a3 a2 a1 a0 heq
    injection heq with e1 r1
    exact (a3 c (h :: t) e1.symm r1.symm).elim

set_option maxHeartbeats 1000000 in
theorem parseRegex_escaped_nil (c : Nat) :
    parseRegex [92, c] = some [(RAtom.lit c, RQuant.one)] := by
  conv_lhs => unfold parseRegex
  split
  · rename_i heq
    exact absurd heq (by simp)
  · rename_i heq
    exact absurd heq (by simp)
  · rename_i s cc rr heq
    exact absurd heq (by simp)
  · rename_i s cc rr heq
    exact absurd heq (by simp)
  · rename_i s hd tl heq
    exact absurd heq (by simp)
  · rename_i s cc rr a2 a1 a0 heq
    injection heq with e1 r1
    injection r1 with e2 r2
    subst e2
    subst r2
    rfl
  · rename_i s cc rr a3 a2 a1 a0 heq
    injection heq with e1 r1
    exact absurd e1.symm a0
  · rename_i s cc rr a3 a2 a1 a0 heq
    injection heq with e1 r1
    exact absurd e1.symm a0
  · rename_i s hd tl a3 a2 a1 a0 heq
    injection heq with e1 r1
    exact absurd e1.symm a0
  · rename_i s cc rr a7 a6 a5 a4 a3 a2 a1 a0 heq
    injection heq with e1 r1
    exact (a3 c [] e1.symm r1.symm).elim

set_option maxHeartbeats 1000000 in
theorem parseRegex_plain_cons (c : Nat) (a : RAtom) (h : Nat) (t : List Nat)
    (hca : charAtom c = some a) (hc92 : c ≠ 92) (h42 : h ≠ 42) (h63 : h ≠ 63) (h43 : h ≠ 43) :
    parseRegex (c :: h :: t)
      = (parseRegex (h :: t)).map (fun l => (a, RQuant.one) :: l) := by
  conv_lhs => unfold parseRegex
  split
  · rename_i heq
    exact absurd heq (by simp)
  · rename_i heq
    injection heq with e1 r1
    exact absurd e1 hc92
  · rename_i s cc rr heq
    injection heq with e1 r1
    exact absurd e1 hc92
  · rename_i s cc rr heq
    injection heq with e1 r1
    exact absurd e1 hc92
  · rename_i s hd tl heq
    injection heq with e1 r1
    exact absurd e1 hc92
  · rename_i s cc rr a2 a1 a0 heq
    injection heq with e1 r1
    exact absurd e1 hc92
  · rename_i s cc rr a3 a2 a1 a0 heq
    injection heq with e1 r1
    injection r1 with e2 r2
    exact absurd e2 h42
  · rename_i s cc rr a3 a2 a1 a0 heq
    injection heq with e1 r1
    injection r1 with e2 r2
    exact absurd e2 h63
  · rename_i s hd tl a3 a2 a1 a0 heq
    injection heq with e1 r1
    injection r1 with e2 r2
    exact absurd e2 h43
  · rename_i s cc rr a7 a6 a5 a4 a3 a2 a1 a0 heq
    injection heq with e1 r1
    subst e1
    subst r1
    rw [hca]

set_option maxHeartbeats 1000000 in
theorem parseRegex_plain_nil (c : Nat) (a : RAtom) (hca : charAtom c = some a)
    (hc92 : c ≠ 92) :
    parseRegex [c] = some [(a, RQuant.one)] := by
  conv_lhs => unfold parseRegex
  split
  · rename_i heq
    exact absurd heq (by simp)
  · rename_i heq
    injection heq with e1 r1
    exact absurd e1 hc92
  · rename_i s cc rr heq
    exact absurd heq (by simp)
  · rename_i s cc rr heq
    exact absurd heq (by simp)
  · rename_i s hd tl heq
    exact absurd heq (by simp)
  · rename_i s cc rr a2 a1 a0 heq
    injection heq with e1 r1
    exact absurd e1 hc92
  · rename_i s cc rr a3 a2 a1 a0 heq
    exact absurd heq (by simp)
  · rename_i s cc rr a3 a2 a1 a0 heq
    exact absurd heq (by simp)
  · rename_i s hd tl a3 a2 a1 a0 heq
    exact absurd heq (by simp)
  · rename_i s cc rr a7 a6 a5 a4 a3 a2 a1 a0 heq
    injection heq with e1 r1
    subst e1
    subst r1
    rw [hca]
    rfl

theorem tok_ne_nil (c : Nat) : tok c ≠ [] := by
  unfold tok
  split
  · simp
  split <;> simp

theorem encode_eq_nil {r : List Nat} (h : encode r = []) : r = [] := by
  cases r with
  | nil => rfl
  | cons d r2 =>
    rw [encode] at h
    exact absurd (List.append_eq_nil.mp h).1 (tok_ne_nil d)

theorem pieceOf_lit {c : Nat} (h42 : c ≠ 42) (h63 : c ≠ 63) :
    pieceOf c = (RAtom.lit c, RQuant.one) := by
  unfold pieceOf
  rw [if_neg h42, if_neg h63]

theorem encode_head_not_quant (p : List Nat) (hp : ∀ c ∈ p, c ≠ 43) :
    encode p = [] ∨ ∃ h t, encode p = h :: t ∧ h ≠ 42 ∧ h ≠ 63 ∧ h ≠ 43 := by
  cases p with
  | nil => exact Or.inl rfl
  | cons c r =>
    right
    rw [encode, tok]
    by_cases hesc : escClass c = true
    · rw [if_pos hesc]
      exact ⟨92, c :: encode r, rfl, by omega, by omega, by omega⟩
    · rw [if_neg hesc]
      by_cases hq : (c = 42 || c = 63) = true
      · rw [if_pos hq]
        exact ⟨46, c :: encode r, rfl, by omega, by omega, by omega⟩
      · rw [if_neg hq]
        simp only [Bool.or_eq_true, decide_eq_true_eq, not_or] at hq
        exact ⟨c, encode r, rfl, hq.1, hq.2, hp c (by simp)⟩

/-- the regex source `pattern` emits for a restricted input parses into
exactly one quantified atom per input char -/
theorem parseRegex_encode : ∀ (p : List Nat),
    (∀ c ∈ p, c ≠ 92 ∧ c ≠ 91 ∧ c ≠ 93 ∧ c ≠ 43 ∧ c ≠ 124) →
    parseRegex (encode p) = some (pieces p) := by
  intro p
  induction p with
  | nil => intro _; rfl
  | cons c r ih =>
    intro hp
    have hih := ih (fun d hd => hp d (by simp [hd]))
    obtain ⟨hc92, hc91, hc93, hc43, hc124⟩ := hp c (by simp)
    have hhead := encode_head_not_quant r (fun d hd => (hp d (by simp [hd])).2.2.2.1)
    rw [encode, tok]
    by_cases hesc : escClass c = true
    · rw [if_pos hesc]
      have hc42 : c ≠ 42 := by intro h; subst h; exact absurd hesc (by decide)
      have hc63 : c ≠ 63 := by intro h; subst h; exact absurd hesc (by decide)
      have hpieces : pieces (c :: r) = (RAtom.lit c, RQuant.one) :: pieces r := by
        rw [pieces, List.map_cons, pieceOf_lit hc42 hc63]
        rfl
      rcases hhead with hnil | ⟨h, t, ht, h42, h63, h43⟩
      · rw [hnil]
        rw [show ([92, c] ++ [] : List Nat) = [92, c] from by simp]
        rw [parseRegex_escaped_nil, hpieces]
        rw [encode_eq_nil hnil]
        rfl
      · rw [ht]
        rw [show ([92, c] ++ (h :: t) : List Nat) = 92 :: c :: h :: t from rfl]
        rw [parseRegex_escaped_cons c h t h42 h63 h43, ← ht, hih, hpieces]
        rfl
    · rw [if_neg hesc]
      by_cases hq : (c = 42 || c = 63) = true
      · rcases (by simpa using hq : c = 42 ∨ c = 63) with h42 | h63
        · subst h42
          rw [if_pos (by decide)]
          rw [show ([46, 42] ++ encode r : List Nat) = 46 :: 42 :: encode r from rfl]
          rw [show parseRegex (46 :: 42 :: encode r)
              = (parseRegex (encode r)).map (fun l => (RAtom.any, RQuant.star) :: l)
            from rfl]
          rw [hih]
          rfl
        · subst h63
          rw [if_pos (by decide)]
          rw [show ([46, 63] ++ encode r : List Nat) = 46 :: 63 :: encode r from rfl]
          rw [show parseRegex (46 :: 63 :: encode r)
              = (parseRegex (encode r)).map (fun l => (RAtom.any, RQuant.opt) :: l)
            from rfl]
          rw [hih]
          rfl
      · rw [if_neg hq]
        simp only [Bool.or_eq_true, decide_eq_true_eq, not_or] at hq
        obtain ⟨hc42, hc63⟩ := hq
        have hc46 : c ≠ 46 := by intro h; subst h; exact hesc (by decide)
        have hca : charAtom c = some (RAtom.lit c) := by
          unfold charAtom
          rw [if_neg hc46, if_neg ?hmeta]
          case hmeta =>
            intro hor
            simp only [Bool.or_eq_true, decide_eq_true_eq] at hor
            have h40 : c ≠ 40 := by intro h; subst h; exact hesc (by decide)
            have h41 : c ≠ 41 := by intro h; subst h; exact hesc (by decide)
            have h123 : c ≠ 123 := by intro h; subst h; exact hesc (by decide)
            have h125 : c ≠ 125 := by intro h; subst h; exact hesc (by decide)
            have h94 : c ≠ 94 := by intro h; subst h; exact hesc (by decide)
            have h36 : c ≠ 36 := by intro h; subst h; exact hesc (by decide)
            omega
        have hpieces : pieces (c :: r) = (RAtom.lit c, RQuant.one) :: pieces r := by
          rw [pieces, List.map_cons, pieceOf_lit hc42 hc63]
          rfl
        rcases hhead with hnil | ⟨h, t, ht, h42, h63, h43⟩
        · rw [hnil]
          rw [show ([c] ++ [] : List Nat) = [c] from by simp]
          rw [parseRegex_plain_nil c _ hca hc92, hpieces]
          rw [encode_eq_nil hnil]
          rfl
        · rw [ht]
          rw [show ([c] ++ (h :: t) : List Nat) = c :: h :: t from rfl]
          rw [parseRegex_plain_cons c _ h t hca hc92 h42 h63 h43, ← ht, hih, hpieces]
          rfl

/-- on line-terminator-free strings the parsed regex matches exactly as
the zero-or-one glob semantics -/
theorem matchGo_equiv : ∀ (n : Nat) (p k : List Nat), (∀ c ∈ k, c ≠ 10 ∧ c ≠ 13) →
    reMatchGo n (pieces p) k = amendedGlobGo n p k := by
  intro n
  induction n with
  | zero => intro p k _; rfl
  | succ m ih =>
    intro p k hk
    cases p with
    | nil =>
      cases k with
      | nil => rfl
      | cons c s => rfl
    | cons c r =>
      by_cases h42 : c = 42
      · subst h42
        rw [show pieces (42 :: r) = (RAtom.any, RQuant.star) :: pieces r from rfl]
        cases k with
        | nil =>
          rw [show reMatchGo (m + 1) ((RAtom.any, RQuant.star) :: pieces r) []
              = (reMatchGo m (pieces r) [] || false) from rfl]
          rw [show amendedGlobGo (m + 1) (42 :: r) []
              = (amendedGlobGo m r [] || false) from rfl]
          rw [ih r [] (by simp)]
        | cons d s =>
          have hd := hk d (by simp)
          rw [show reMatchGo (m + 1) ((RAtom.any, RQuant.star) :: pieces r) (d :: s)
              = (reMatchGo m (pieces r) (d :: s) ||
                 (atomTest RAtom.any d && reMatchGo m ((RAtom.any, RQuant.star) :: pieces r) s))
            from rfl]
          rw [show amendedGlobGo (m + 1) (42 :: r) (d :: s)
              = (amendedGlobGo m r (d :: s) || amendedGlobGo m (42 :: r) s) from by
            rw [amendedGlobGo]
            simp]
          rw [show atomTest RAtom.any d = true from by
            simp [atomTest, hd.1, hd.2]]
          rw [Bool.true_and, ih r (d :: s) hk,
            show (RAtom.any, RQuant.star) :: pieces r = pieces (42 :: r) from rfl,
            ih (42 :: r) s (fun e he => hk e (by simp [he]))]
      · by_cases h63 : c = 63
        · subst h63
          rw [show pieces (63 :: r) = (RAtom.any, RQuant.opt) :: pieces r from rfl]
          cases k with
          | nil =>
            rw [show reMatchGo (m + 1) ((RAtom.any, RQuant.opt) :: pieces r) []
                = (reMatchGo m (pieces r) [] || false) from rfl]
            rw [show amendedGlobGo (m + 1) (63 :: r) []
                = (amendedGlobGo m r [] || false) from rfl]
            rw [ih r [] (by simp)]
          | cons d s =>
            have hd := hk d (by simp)
            rw [show reMatchGo (m + 1) ((RAtom.any, RQuant.opt) :: pieces r) (d :: s)
                = (reMatchGo m (pieces r) (d :: s) ||
                   (atomTest RAtom.any d && reMatchGo m (pieces r) s)) from rfl]
            rw [show amendedGlobGo (m + 1) (63 :: r) (d :: s)
                = (amendedGlobGo m r (d :: s) || amendedGlobGo m r s) from by
              rw [amendedGlobGo]
              simp]
            rw [show atomTest RAtom.any d = true from by
              simp [atomTest, hd.1, hd.2]]
            rw [Bool.true_and, ih r (d :: s) hk, ih r s (fun e he => hk e (by simp [he]))]
        · rw [show pieces (c :: r) = (RAtom.lit c, RQuant.one) :: pieces r from by
            rw [pieces, List.map_cons, pieceOf_lit h42 h63]
            rfl]
          cases k with
          | nil =>
            rw [show reMatchGo (m + 1) ((RAtom.lit c, RQuant.one) :: pieces r) []
                = false from rfl]
            rw [show amendedGlobGo (m + 1) (c :: r) [] = false from by
              rw [amendedGlobGo]
              simp [h42, h63]]
          | cons d s =>
            rw [show reMatchGo (m + 1) ((RAtom.lit c, RQuant.one) :: pieces r) (d :: s)
                = (atomTest (RAtom.lit c) d && reMatchGo m (pieces r) s) from rfl]
            rw [show amendedGlobGo (m + 1) (c :: r) (d :: s)
                = (decide (d = c) && amendedGlobGo m r s) from by
              rw [amendedGlobGo]
              simp [h42, h63]]
            rw [show atomTest (RAtom.lit c) d = decide (d = c) from rfl]
            rw [ih r s (fun e he => hk e (by simp [he]))]

/-- the anchored regex `pattern` builds matches a terminator-free key
exactly as the zero-or-one glob semantics -/
theorem reMatch_pieces (p k : List Nat) (hk : ∀ c ∈ k, c ≠ 10 ∧ c ≠ 13) :
    reMatch (pieces p) k = amendedGlobMatch p k := by
  rw [reMatch, amendedGlobMatch, pieces, List.length_map]
  exact matchGo_equiv (p.length + k.length + 1) p k hk

/-- C8 counterexample to the original claim: `runKeys` with pattern `a?`
reports key `a` as a match (the rewrite turns `?` into the regex `.?`,
zero or one char), while the claim's glob semantics (`?` = exactly one
char) rejects it. -/
theorem c8_counterexample :
    runKeys ⟨[(bs "a", ⟨.buf (bs "x"), none⟩)], false⟩ (bs "a?") = some [bs "a"]
      ∧ claimGlobMatch (bs "a?") (bs "a") = false := by
  exact ⟨rfl, rfl⟩

/-- C8 (amended): for every pattern free of backslashes, brackets, plus
and pipe, and every keyspace whose keys are free of line terminators, the
KEYS filter admits exactly the keys matched by the anchored glob in which
`*` matches any run, `?` matches ZERO OR ONE character (not exactly one:
the rewrite emits `.?`), and every other character — including the regex
metacharacters `. ( ) { } ^ $`, which the first replace escapes — is
literal. -/
theorem c8_keys_glob_semantics (ks : KS) (p : List Nat)
    (hp : ∀ c ∈ p, c ≠ 92 ∧ c ≠ 91 ∧ c ≠ 93 ∧ c ≠ 43 ∧ c ≠ 124)
    (hk : ∀ q ∈ ks.entries, ∀ c ∈ q.1, c ≠ 10 ∧ c ≠ 13) :
    runKeys ks p
      = some ((ks.entries.map Prod.fst).filter (fun k => amendedGlobMatch p k)) := by
  rw [runKeys, pattern_encode p (fun c hc => (hp c hc).1), parseRegex_encode p hp]
  rw [show (some (pieces p)).map
      (fun ps => (ks.entries.map Prod.fst).filter (fun k => reMatch ps k))
      = some ((ks.entries.map Prod.fst).filter (fun k => reMatch (pieces p) k)) from rfl]
  refine congrArg some (List.filter_congr ?_)
  intro k hkmem
  obtain ⟨q, hq, hqk⟩ := List.mem_map.mp hkmem
  exact reMatch_pieces p k (fun c hc => hk q hq c (hqk ▸ hc))

/-- C8 witness: with keys `abc`, `a`, `ba` the pattern `a*` selects
exactly `abc` and `a`, matching the amended glob semantics. -/
theorem c8_keys_glob_witness :
    runKeys ⟨[(bs "abc", ⟨.buf (bs "x"), none⟩), (bs "a", ⟨.buf (bs "x"), none⟩),
        (bs "ba", ⟨.buf (bs "x"), none⟩)], false⟩ (bs "a*")
      = some [bs "abc", bs "a"] := by
  rw [c8_keys_glob_semantics ⟨[(bs "abc", ⟨.buf (bs "x"), none⟩),
      (bs "a", ⟨.buf (bs "x"), none⟩), (bs "ba", ⟨.buf (bs "x"), none⟩)], false⟩
    (bs "a*") (by decide) (by decide)]
  rfl

end RedisDev